import Mathlib

/-!
Verification development for the `tic-strategy-app` paper-engine loaders.

This file shallowly embeds the core of the repository:

* the Delivery Reconciliation Engine (`Loader.compute_events` in
  `src/equity/paper-engine-orders/src/paper_engine_orders/__main__.py`),
  generic over the entity `State` contract of `model/base.py`;
* the `Orders` state record and its event log
  (`src/equity/paper-engine-orders/src/paper_engine_orders/model/orders.py`),
  including a full SHA-256 implementation for the content fingerprint;
* the persistence batching of `Loader.persist_postgres` (equity and alpaca
  variants);
* the order-sizing engines (`weighting/weighting.py`, equity and alpaca
  variants);
* the turnover-limited rebalance blend
  (`src/alpaca/paper-engine-strategy/.../portfolio_optimization/po.py`).

Python `dict`s (insertion ordered) are modelled as association lists,
Python `Decimal` values as rationals, and Python iterators handing out
consecutive sequence values as natural-number seeds.
-/

namespace PaperEngine

/-- Event types, from `model/event_type.py`. -/
inductive EventType where
  | CREATE
  | AMEND
  | REMOVE
  | POINTLESS_AMEND
  | RECREATE
deriving DecidableEq, Repr

/-- An event log entry (`EventLog.from_states` in `model/base.py`):
an event type, the current state and the optional previous state. -/
structure EventLog (S : Type) where
  event_type : EventType
  curr : S
  prev : Option S
deriving DecidableEq, Repr

/-- The abstract `State` contract of `model/base.py`, as used by the generic
diff algorithm: a key projection, the content-fingerprint `hash` property,
the assignment of `event_id`/`delivery_id` done by mutation in
`compute_events`, and the `removal_instance` tombstone constructor. -/
structure StateOps (S K : Type) where
  key : S → K
  hash : S → String
  withIds : S → Nat → Nat → S
  removal_instance : Nat → Nat → K → S

/-- The `State` contract invariants: `key` and `hash` ignore the
persistence identifiers written by `withIds`, and a removal tombstone
carries exactly the key it is built from.  Each concrete entity kind
satisfies these (proved below for `Orders`). -/
structure StateOps.Lawful {S K : Type} (ops : StateOps S K) : Prop where
  key_withIds : ∀ s e d, ops.key (ops.withIds s e d) = ops.key s
  hash_withIds : ∀ s e d, ops.hash (ops.withIds s e d) = ops.hash s
  key_removal : ∀ e d k, ops.key (ops.removal_instance e d k) = k

variable {S K : Type} [DecidableEq K]

/-- Lookup in a Python-dict-as-association-list (`haystack[needle]`,
`Loader.find`). -/
def dictGet : List (K × S) → K → Option S
  | [], _ => none
  | (k', v') :: t, k => if k' = k then some v' else dictGet t k

/-- Store into a Python-dict-as-association-list (`events[item.key] = item`):
replaces in place on an existing key, appends on a new key (Python dicts
preserve insertion order). -/
def dictSet : List (K × S) → K → S → List (K × S)
  | [], k, v => [(k, v)]
  | (k', v') :: t, k, v => if k' = k then (k, v) :: t else (k', v') :: dictSet t k v

/-- Result of the main diff loop of `Loader.compute_events`: the CREATE and
AMEND event lists, the rolling baseline map (`events` in the source), and
the next unused event id of the batch sequence cursor. -/
structure DiffRes (S K : Type) where
  create : List (EventLog S)
  amend : List (EventLog S)
  base : List (K × S)
  next : Nat
deriving Repr

/-- The main loop of `Loader.compute_events`
(`src/equity/paper-engine-orders/src/paper_engine_orders/__main__.py`,
lines 520-558): one pass over `curr` in order, against the rolling
baseline initialized to `prev`.  A record whose key is present with an
equal hash produces no event; otherwise ids are assigned (consuming the
event-id cursor `n`, the delivery id `d`) and a CREATE or AMEND event is
emitted, the baseline being updated in place. -/
def diffPass (ops : StateOps S K) (d : Nat) :
    Nat → List (K × S) → List S → DiffRes S K
  | n, base, [] => ⟨[], [], base, n⟩
  | n, base, item :: rest =>
    match dictGet base (ops.key item) with
    | some prev_item =>
      if ops.hash item = ops.hash prev_item then
        diffPass ops d n base rest
      else
        let item2 := ops.withIds item n d
        let r := diffPass ops d (n + 1) (dictSet base (ops.key item2) item2) rest
        ⟨r.create, ⟨EventType.AMEND, item2, some prev_item⟩ :: r.amend, r.base, r.next⟩
    | none =>
      let item2 := ops.withIds item n d
      let r := diffPass ops d (n + 1) (dictSet base (ops.key item2) item2) rest
      ⟨⟨EventType.CREATE, item2, none⟩ :: r.create, r.amend, r.base, r.next⟩

/-- The removal step of `Loader.compute_events` (lines 560-574):
`prev_keys = set(events.keys()) - set(item.key for item in curr)`; for each
such key a tombstone is built from a fresh event-id cursor (seed `rSeed`)
and a REMOVE event is emitted whose `prev` is the baseline record.
The set difference is modelled in baseline-key order. -/
def removalPass (ops : StateOps S K) (d rSeed : Nat)
    (base : List (K × S)) (currKeys : List K) : List (EventLog S) :=
  let prevKeys := (base.map Prod.fst).filter (fun k => ¬ k ∈ currKeys)
  prevKeys.enum.map (fun p =>
    ⟨EventType.REMOVE, ops.removal_instance (rSeed + p.1) d p.2, dictGet base p.2⟩)

/-- The event sets produced for one entity kind in one delivery. -/
structure Events (S : Type) where
  create : List (EventLog S)
  amend : List (EventLog S)
  remove : List (EventLog S)
deriving Repr

/-- Embedding of `Loader.compute_events` (equity `__main__.py`, lines 487-582): the diff
pass over `curr` against `prev`, followed by the removal pass.  `eSeed` and
`rSeed` are the first values handed out by the two `get_next_event_id`
sequence cursors, `d` the delivery id. -/
def compute_events (ops : StateOps S K) (d eSeed rSeed : Nat)
    (curr : List S) (prev : List (K × S)) : Events S :=
  let r := diffPass ops d eSeed prev curr
  ⟨r.create, r.amend, removalPass ops d rSeed r.base (curr.map ops.key)⟩

end PaperEngine

namespace PaperEngine

/-! ### SHA-256 (`hashlib.sha256(...).hexdigest()` as used by `Orders.hash`) -/

/-- Right rotation of a 32-bit word. -/
def rotr (n x : Nat) : Nat := ((x >>> n) ||| (x <<< (32 - n))) &&& 0xFFFFFFFF

/-- Integer cube root, fuel-based structural recursion (the fuel bounds the
recursion depth; `n` itself is always enough fuel). -/
def cbrtNatAux : Nat → Nat → Nat
  | 0, _ => 0
  | fuel + 1, n =>
    if n = 0 then 0
    else
      let r := 2 * cbrtNatAux fuel (n / 8)
      if (r + 1) ^ 3 ≤ n then r + 1 else r

/-- Integer cube root (used to derive the SHA-256 round constants). -/
def cbrtNat (n : Nat) : Nat := cbrtNatAux n n

/-- The first 64 primes. -/
def primes64 : List Nat :=
  [2, 3, 5, 7, 11, 13, 17, 19, 23, 29, 31, 37, 41, 43, 47, 53, 59, 61, 67, 71,
   73, 79, 83, 89, 97, 101, 103, 107, 109, 113, 127, 131, 137, 139, 149, 151,
   157, 163, 167, 173, 179, 181, 191, 193, 197, 199, 211, 223, 227, 229, 233,
   239, 241, 251, 257, 263, 269, 271, 277, 281, 283, 293, 307, 311]

/-- SHA-256 round constants: fractional parts of the cube roots of the first
64 primes, scaled by 2^32. -/
def shaK : List Nat := primes64.map (fun p => cbrtNat (p * 2 ^ 96) % 2 ^ 32)

/-- SHA-256 initial hash values: fractional parts of the square roots of the
first 8 primes, scaled by 2^32. -/
def shaH0 : List Nat :=
  [2, 3, 5, 7, 11, 13, 17, 19].map (fun p => Nat.sqrt (p * 2 ^ 64) % 2 ^ 32)

/-- UTF-8 encoding of one code point. -/
def utf8Encode (c : Nat) : List Nat :=
  if c < 0x80 then [c]
  else if c < 0x800 then [0xC0 ||| (c >>> 6), 0x80 ||| (c &&& 0x3F)]
  else if c < 0x10000 then
    [0xE0 ||| (c >>> 12), 0x80 ||| ((c >>> 6) &&& 0x3F), 0x80 ||| (c &&& 0x3F)]
  else
    [0xF0 ||| (c >>> 18), 0x80 ||| ((c >>> 12) &&& 0x3F),
     0x80 ||| ((c >>> 6) &&& 0x3F), 0x80 ||| (c &&& 0x3F)]

/-- UTF-8 bytes of a string. -/
def strBytes (s : String) : List Nat := (s.data.map (fun c => utf8Encode c.toNat)).flatten

/-- Big-endian 8-byte encoding. -/
def bigEndian8 (n : Nat) : List Nat :=
  (List.range 8).reverse.map (fun i => (n >>> (8 * i)) &&& 0xFF)

/-- SHA-256 message padding. -/
def sha256pad (msg : List Nat) : List Nat :=
  let z := (119 - msg.length % 64) % 64
  msg ++ [0x80] ++ List.replicate z 0 ++ bigEndian8 (8 * msg.length)

/-- Group bytes into big-endian 32-bit words. -/
def bytesToWords : List Nat → List Nat
  | a :: b :: c :: d :: rest =>
    ((((a <<< 8) ||| b) <<< 8 ||| c) <<< 8 ||| d) :: bytesToWords rest
  | _ => []

/-- Group a word list into 16-word blocks, fuel-based (the list length is
always enough fuel, each step dropping at least one element). -/
def chunk16Aux : Nat → List Nat → List (List Nat)
  | 0, _ => []
  | _ + 1, [] => []
  | fuel + 1, w :: ws => (w :: ws).take 16 :: chunk16Aux fuel ((w :: ws).drop 16)

/-- Group a word list into 16-word blocks. -/
def chunk16 (ws : List Nat) : List (List Nat) := chunk16Aux ws.length ws

/-- SHA-256 small sigma 0. -/
def sig0 (x : Nat) : Nat := rotr 7 x ^^^ rotr 18 x ^^^ (x >>> 3)

/-- SHA-256 small sigma 1. -/
def sig1 (x : Nat) : Nat := rotr 17 x ^^^ rotr 19 x ^^^ (x >>> 10)

/-- One step of the message-schedule extension. -/
def scheduleStep (ws : List Nat) : List Nat :=
  ws ++ [(ws.getD (ws.length - 16) 0 + sig0 (ws.getD (ws.length - 15) 0)
          + ws.getD (ws.length - 7) 0 + sig1 (ws.getD (ws.length - 2) 0)) % 2 ^ 32]

/-- Extend a 16-word block to the 64-word message schedule. -/
def schedule (ws : List Nat) : List Nat := Nat.rec ws (fun _ acc => scheduleStep acc) 48

/-- SHA-256 working registers. -/
structure Regs where
  a : Nat
  b : Nat
  c : Nat
  d : Nat
  e : Nat
  f : Nat
  g : Nat
  hh : Nat

/-- SHA-256 big sigma 0. -/
def bigS0 (x : Nat) : Nat := rotr 2 x ^^^ rotr 13 x ^^^ rotr 22 x

/-- SHA-256 big sigma 1. -/
def bigS1 (x : Nat) : Nat := rotr 6 x ^^^ rotr 11 x ^^^ rotr 25 x

/-- SHA-256 choice function. -/
def chFn (e f g : Nat) : Nat := (e &&& f) ^^^ ((0xFFFFFFFF ^^^ e) &&& g)

/-- SHA-256 majority function. -/
def majFn (a b c : Nat) : Nat := (a &&& b) ^^^ (a &&& c) ^^^ (b &&& c)

/-- One SHA-256 compression round; `kw` is the round constant plus the
schedule word. -/
def shaRound (r : Regs) (kw : Nat) : Regs :=
  let t1 := (r.hh + bigS1 r.e + chFn r.e r.f r.g + kw) % 2 ^ 32
  let t2 := (bigS0 r.a + majFn r.a r.b r.c) % 2 ^ 32
  ⟨(t1 + t2) % 2 ^ 32, r.a, r.b, r.c, (r.d + t1) % 2 ^ 32, r.e, r.f, r.g⟩

/-- Compress one 16-word block into the running hash state. -/
def processBlock (hs block : List Nat) : List Nat :=
  let ws := schedule block
  let init : Regs := ⟨hs.getD 0 0, hs.getD 1 0, hs.getD 2 0, hs.getD 3 0,
                      hs.getD 4 0, hs.getD 5 0, hs.getD 6 0, hs.getD 7 0⟩
  let r := (shaK.zip ws).foldl (fun st kw => shaRound st (kw.1 + kw.2)) init
  [(hs.getD 0 0 + r.a) % 2 ^ 32, (hs.getD 1 0 + r.b) % 2 ^ 32,
   (hs.getD 2 0 + r.c) % 2 ^ 32, (hs.getD 3 0 + r.d) % 2 ^ 32,
   (hs.getD 4 0 + r.e) % 2 ^ 32, (hs.getD 5 0 + r.f) % 2 ^ 32,
   (hs.getD 6 0 + r.g) % 2 ^ 32, (hs.getD 7 0 + r.hh) % 2 ^ 32]

/-- One lowercase hexadecimal digit. -/
def hexDigit (d : Nat) : Char := Char.ofNat (if d < 10 then 48 + d else 87 + d)

/-- Lowercase hexadecimal rendering of a 32-bit word, 8 digits. -/
def hex8 (n : Nat) : String :=
  String.mk ((List.range 8).reverse.map (fun i => hexDigit ((n >>> (4 * i)) &&& 15)))

/-- Model of `hashlib.sha256(s.encode("utf-8")).hexdigest()`. -/
def sha256hex (s : String) : String :=
  let blocks := chunk16 (bytesToWords (sha256pad (strBytes s)))
  String.join ((blocks.foldl processBlock shaH0).map hex8)

end PaperEngine

namespace PaperEngine

/-! ### The `Orders` state record
(`src/equity/paper-engine-orders/src/paper_engine_orders/model/orders.py`).

`Decimal` value fields are modelled as rationals (`Decimal` equality is
numeric equality), `datetime` fields as their rendered strings. -/

/-- Left-pad a digit string with zeros to width `k`. -/
def zfill (k : Nat) (s : String) : String :=
  String.mk (List.replicate (k - s.length) '0') ++ s

/-- Rendering of a `Decimal` value modelled as a rational: the plain decimal
expansion with the smallest exponent (Python renders a `Decimal` with its
stored scale; the scale is not recoverable from the numeric value, so the
minimal-exponent expansion stands in).  Rationals whose denominator is not
a power of ten cannot arise from `Decimal` and get a fallback rendering. -/
def decRepr (q : ℚ) : String :=
  match (List.range 29).find? (fun k => (q.den : Nat) ∣ 10 ^ k) with
  | some 0 => toString q.num
  | some (k + 1) =>
    let m := q.num.natAbs * 10 ^ (k + 1) / q.den
    (if q.num < 0 then "-" else "")
      ++ toString (m / 10 ^ (k + 1)) ++ "." ++ zfill (k + 1) (toString (m % 10 ^ (k + 1)))
  | none => toString q.num ++ "/" ++ toString q.den

/-- Python `str` of an optional `Decimal` as interpolated by an f-string:
`None` for an absent value. -/
def optDecRepr : Option ℚ → String
  | none => "None"
  | some q => decRepr q

/-- The `Orders` state (`model/orders.py`, class `Orders`).  Key fields are
`portfolio_id`, `asset_id`, `order_ts`; the last four value fields default
to `None`.  `side` and `asset_id_type` carry no Python default (they are
left unset by `removal_instance`); the model gives them inhabitants, which
no theorem depends on. -/
structure Orders where
  portfolio_id : Int
  side : Int := 0
  asset_id_type : String := ""
  asset_id : String
  order_ts : String
  target_wgt : Option ℚ := none
  real_wgt : Option ℚ := none
  quantity : Option ℚ := none
  notional : Option ℚ := none
  event_id : Option Nat := none
  delivery_id : Option Nat := none
deriving DecidableEq, Repr

/-- Embedding of `Orders.hash` (`model/orders.py`, lines 29-44): the SHA-256 hexdigest of
the comma-separated rendering of the nine record fields — the persistence
identifiers `event_id`/`delivery_id` are not part of the digest input. -/
def Orders.hash (o : Orders) : String :=
  sha256hex
    (toString o.portfolio_id ++ ", "
      ++ toString o.side ++ ", "
      ++ o.asset_id_type ++ ", "
      ++ o.asset_id ++ ", "
      ++ o.order_ts ++ ", "
      ++ optDecRepr o.target_wgt ++ ", "
      ++ optDecRepr o.real_wgt ++ ", "
      ++ optDecRepr o.quantity ++ ", "
      ++ optDecRepr o.notional)

/-- Embedding of `Orders.key` (`model/orders.py`, lines 46-49). -/
def Orders.key (o : Orders) : Int × String × String :=
  (o.portfolio_id, o.asset_id, o.order_ts)

/-- A raw source row for `Orders.from_source`: a loosely-typed 9-tuple.
The four optional `Decimal` slots can hold an absent value (`None`) or a
numeric value; `Decimal("0")` is falsy in Python. -/
structure OrdersSourceRecord where
  r0 : Int
  r1 : Int
  r2 : String
  r3 : String
  r4 : String
  r5 : Option ℚ
  r6 : Option ℚ
  r7 : Option ℚ
  r8 : Option ℚ
deriving DecidableEq, Repr

/-- Python's `x if x else None` on an optional `Decimal` slot: both `None`
and a zero value are falsy and map to `None`. -/
def coerceFalsy : Option ℚ → Option ℚ
  | none => none
  | some q => if q = 0 then none else some q

/-- Embedding of `Orders.from_source` (`model/orders.py`, lines 51-67). -/
def Orders.from_source (record : OrdersSourceRecord) : Orders :=
  { event_id := none
    delivery_id := none
    portfolio_id := record.r0
    side := record.r1
    asset_id_type := record.r2
    asset_id := record.r3
    order_ts := record.r4
    target_wgt := coerceFalsy record.r5
    real_wgt := coerceFalsy record.r6
    quantity := coerceFalsy record.r7
    notional := coerceFalsy record.r8 }

/-- A persisted target row for `Orders.from_target`: the 12-tuple shape of
`Orders.as_tuple` (nine fields, stored hash, event id, delivery id). -/
structure OrdersTargetRecord where
  t0 : Int
  t1 : Int
  t2 : String
  t3 : String
  t4 : String
  t5 : Option ℚ
  t6 : Option ℚ
  t7 : Option ℚ
  t8 : Option ℚ
  t9 : String
  t10 : Option Nat
  t11 : Option Nat
deriving DecidableEq, Repr

/-- Embedding of `Orders.from_target` (`model/orders.py`, lines 69-88); the stored hash
`record[9]` is discarded (recomputed, not trusted). -/
def Orders.from_target (record : OrdersTargetRecord) : Orders :=
  { portfolio_id := record.t0
    side := record.t1
    asset_id_type := record.t2
    asset_id := record.t3
    order_ts := record.t4
    target_wgt := coerceFalsy record.t5
    real_wgt := coerceFalsy record.t6
    quantity := coerceFalsy record.t7
    notional := coerceFalsy record.t8
    event_id := record.t10
    delivery_id := record.t11 }

/-- Embedding of `Orders.removal_instance` (`model/orders.py`, lines 90-98): identifiers
and key fields populated, everything else left at its default (the Python
code leaves `side`/`asset_id_type` attributes unset; any value-field access
on a tombstone would raise). -/
def Orders.removal_instance (event_id delivery_id : Nat)
    (key : Int × String × String) : Orders :=
  { event_id := some event_id
    delivery_id := some delivery_id
    portfolio_id := key.1
    asset_id := key.2.1
    order_ts := key.2.2 }

/-- Embedding of `Orders.as_tuple` (`model/orders.py`, lines 105-120). -/
def Orders.as_tuple (o : Orders) : OrdersTargetRecord :=
  ⟨o.portfolio_id, o.side, o.asset_id_type, o.asset_id, o.order_ts,
   o.target_wgt, o.real_wgt, o.quantity, o.notional, o.hash,
   o.event_id, o.delivery_id⟩

/-- The id assignment done by `Loader.compute_events` on a state record
(`item.delivery_id = delivery_id; item.event_id = next(it_event_id)`). -/
def Orders.withIds (o : Orders) (e d : Nat) : Orders :=
  { o with event_id := some e, delivery_id := some d }

/-- The `Orders` instance of the abstract `State` contract used by the
generic diff algorithm. -/
def ordersOps : StateOps Orders (Int × String × String) :=
  ⟨Orders.key, Orders.hash, Orders.withIds, Orders.removal_instance⟩

/-- The `Orders` event log (`model/orders.py`, class `OrdersLog`). -/
structure OrdersLog where
  event_type : EventType
  curr : Orders
  prev : Option Orders
deriving DecidableEq, Repr

/-- Embedding of `EventLog.from_states` (`model/base.py`, lines 70-80) at type
`OrdersLog`. -/
def OrdersLog.from_states (event_type : EventType) (curr : Orders)
    (prev : Option Orders) : OrdersLog :=
  ⟨event_type, curr, prev⟩

/-- Embedding of `OrdersLog.mask` (`model/orders.py`, lines 129-155): all-ones when
`prev` is absent or the event is CREATE/REMOVE/RECREATE, all-zeros for
POINTLESS_AMEND, otherwise one bit per field, `"1"` iff the field changed.
(The source also tests `curr is None`; `curr` is typed non-optional and is
never `None`, so that disjunct is dropped.) -/
def OrdersLog.mask (l : OrdersLog) : String :=
  match l.prev with
  | none => "111111111"
  | some p =>
    if l.event_type = EventType.CREATE ∨ l.event_type = EventType.REMOVE
        ∨ l.event_type = EventType.RECREATE then "111111111"
    else if l.event_type = EventType.POINTLESS_AMEND then "000000000"
    else
      (if l.curr.portfolio_id ≠ p.portfolio_id then "1" else "0")
        ++ (if l.curr.side ≠ p.side then "1" else "0")
        ++ (if l.curr.asset_id_type ≠ p.asset_id_type then "1" else "0")
        ++ (if l.curr.asset_id ≠ p.asset_id then "1" else "0")
        ++ (if l.curr.order_ts ≠ p.order_ts then "1" else "0")
        ++ (if l.curr.target_wgt ≠ p.target_wgt then "1" else "0")
        ++ (if l.curr.real_wgt ≠ p.real_wgt then "1" else "0")
        ++ (if l.curr.quantity ≠ p.quantity then "1" else "0")
        ++ (if l.curr.notional ≠ p.notional then "1" else "0")

end PaperEngine

namespace PaperEngine

/-! ### Persistence batching (`Loader.persist_postgres`) -/

/-- One SQL statement issued by `Loader.persist_postgres`: an event-log
append, a (single- or multi-row) upsert, or a delete-by-keys. -/
inductive Stmt (S K : Type) where
  | append_log (events : List (EventLog S))
  | upsert (rows : List S)
  | delete (keys : List K)
deriving Repr

variable {S K : Type} [DecidableEq K]

/-- Embedding of `Loader.persist_postgres` of the equity orders loader
(equity `__main__.py`, lines 668-728), as the list of statements issued:
per event type, the log append, then — when the batch keys are pairwise
distinct (`len(set(keys)) == len(batch)`) — one multi-row upsert, otherwise
one single-row upsert per record in original order; finally the REMOVE log
append and the delete of the removed keys. -/
def equity_persist_postgres (ops : StateOps S K) (events : Events S) :
    List (Stmt S K) :=
  let batch_create := (events.create.map (fun e => ops.key e.curr)).Nodup
  let batch_amend := (events.amend.map (fun e => ops.key e.curr)).Nodup
  [Stmt.append_log events.create]
    ++ (if batch_create then [Stmt.upsert (events.create.map (fun e => e.curr))]
        else events.create.map (fun e => Stmt.upsert [e.curr]))
    ++ [Stmt.append_log events.amend]
    ++ (if batch_amend then [Stmt.upsert (events.amend.map (fun e => e.curr))]
        else events.amend.map (fun e => Stmt.upsert [e.curr]))
    ++ [Stmt.append_log events.remove,
        Stmt.delete (events.remove.map (fun e => ops.key e.curr))]

/-- Embedding of `Loader.persist_postgres` of the alpaca orders loader
(alpaca `__main__.py`, lines 530-561): the upserted records with the same
distinct-keys check and per-record fallback, then the delete. -/
def alpaca_persist_postgres (ops : StateOps S K) (records : List S)
    (keys_to_remove : List K) : List (Stmt S K) :=
  (if (records.map ops.key).Nodup then [Stmt.upsert records]
   else records.map (fun r => Stmt.upsert [r]))
    ++ [Stmt.delete keys_to_remove]

/-- Store semantics of one upsert statement: each row inserted or replaced
at its natural key, left to right (`insert ... on conflict do update`). -/
def applyUpsert (ops : StateOps S K) (m : List (K × S)) (rows : List S) :
    List (K × S) :=
  rows.foldl (fun m r => dictSet m (ops.key r) r) m

/-- Store semantics of one statement (log appends do not touch the state
table). -/
def applyStmt (ops : StateOps S K) (m : List (K × S)) : Stmt S K → List (K × S)
  | Stmt.append_log _ => m
  | Stmt.upsert rows => applyUpsert ops m rows
  | Stmt.delete ks => m.filter (fun p => ¬ p.1 ∈ ks)

/-- Store semantics of a statement sequence. -/
def applyStmts (ops : StateOps S K) (m : List (K × S))
    (stmts : List (Stmt S K)) : List (K × S) :=
  stmts.foldl (applyStmt ops) m

end PaperEngine

namespace PaperEngine

/-! ### Order sizing (`weighting/weighting.py`, equity and alpaca variants) -/

/-- Python `Decimal` floor division `//`: the integer part of the true
quotient, truncated **toward zero** (unlike `int` floor division).
Division by zero raises in Python; the rational model totalizes it as 0. -/
def decFloorDiv (a b : ℚ) : ℚ :=
  ((if 0 ≤ a / b then ⌊a / b⌋ else ⌈a / b⌉ : ℤ) : ℚ)

/-- The fields of the equity source `Strategy` record read by the equity
weighting engine (`model/source_model/strategy.py` plus the `target_wgt`
attribute read by `weighting.py`).  `target_wgt` is kept total: arithmetic
on an absent value would raise in the source. -/
structure EqStrategyRec where
  asset_id : String
  asset_id_type : String
  decision : Option Int := none
  target_wgt : ℚ := 0
deriving DecidableEq, Repr

/-- The fields of the alpaca source `Strategy` record read by the alpaca
weighting engine (`model/source_model/strategy.py`, attribute `weight`). -/
structure AlStrategyRec where
  asset_id : String
  asset_id_type : String
  decision : Option Int := none
  weight : ℚ := 0
deriving DecidableEq, Repr

/-- An order-parameter record (`broker.buy_params` / `broker.sell_params`
build the broker payload from a symbol and a quantity). -/
inductive OrderSide where
  | buy
  | sell
deriving DecidableEq, Repr

/-- Order parameters: symbol, quantity, side. -/
structure OrderParams where
  symbol : String
  qty : ℚ
  side : OrderSide
deriving DecidableEq, Repr

/-- The `"buy"`/`"sell"` buckets of `get_orders_params`. -/
structure OrdersParams where
  buy : List OrderParams := []
  sell : List OrderParams := []
deriving DecidableEq, Repr

/-- Price selection of the equity `Weighting.get_weights`
(equity `weighting/weighting.py`, lines 62-67): ask price for a long
decision, bid price for anything else, `0` when the book has no quote;
one dict keyed by `asset_id`, later records overwriting earlier ones. -/
def eq_prices (asks bids : List (String × ℚ)) (rs : List EqStrategyRec) :
    List (String × ℚ) :=
  rs.foldl
    (fun m s =>
      dictSet m s.asset_id
        (if s.decision = some 1 then (dictGet asks s.asset_id).getD 0
         else (dictGet bids s.asset_id).getD 0))
    []

/-- Embedding of `get_target_weights` of the equity variant (line 53):
`{s.asset_id: s.target_wgt}`. -/
def eq_target_weights (rs : List EqStrategyRec) : List (String × ℚ) :=
  rs.foldl (fun m s => dictSet m s.asset_id s.target_wgt) []

/-- The quantity computation of the equity `Weighting.get_weights`
(lines 82-89): `Decimal(target_notional // price)`, floored up to 1 when it
is exactly zero. -/
def eq_quantity (capital tw price : ℚ) : ℚ :=
  let q := decFloorDiv (capital * tw) price
  if q = 0 then 1 else q

/-- The quantity computation of the alpaca `Weighting.get_weights`
(alpaca `weighting/weighting.py`, lines 84-96): lot-rounded
(`target_notional // price`) for `"STOCK_TICKER"` instruments, fractional
(`target_notional / price`) otherwise (crypto), floored up to 1 when it is
exactly zero. -/
def al_quantity (capital tw price : ℚ) (asset_id_type : String) : ℚ :=
  let target_notional := capital * tw
  let q := if asset_id_type = "STOCK_TICKER" then decFloorDiv target_notional price
           else target_notional / price
  if q = 0 then 1 else q

/-- The state of the equity `Weighting` after `get_weights`. -/
structure EqWeighting where
  capital : ℚ
  strategy_records : List EqStrategyRec
  current_positions : List (String × ℚ)
  prices : List (String × ℚ)
  target_weights : List (String × ℚ)
  quantities : List (String × ℚ)
  notional : List (String × ℚ)
  real_weights : List (String × ℚ)
  total_value : ℚ
deriving Repr

/-- One iteration of the quantity/notional accumulation loop of the equity
`Weighting.get_weights` (lines 78-94). -/
def eq_qn_step (capital : ℚ) (tw prices : List (String × ℚ))
    (acc : List (String × ℚ) × List (String × ℚ) × ℚ) (s : EqStrategyRec) :
    List (String × ℚ) × List (String × ℚ) × ℚ :=
  let price := (dictGet prices s.asset_id).getD 0
  let q := eq_quantity capital ((dictGet tw s.asset_id).getD 0) price
  let real_notional := q * price
  (dictSet acc.1 s.asset_id q, dictSet acc.2.1 s.asset_id real_notional,
   acc.2.2 + real_notional)

/-- The quantity/notional accumulation loop of the equity
`Weighting.get_weights` (lines 78-94), over the price-filtered records. -/
def eq_qn_loop (capital : ℚ) (tw prices : List (String × ℚ))
    (rs : List EqStrategyRec) :
    List (String × ℚ) × List (String × ℚ) × ℚ :=
  rs.foldl (eq_qn_step capital tw prices) ([], [], 0)

/-- Embedding of `Weighting.get_weights` of the equity variant (equity
`weighting/weighting.py`, lines 55-101): select prices, filter out records
whose price is 0, compute target weights, quantities, notional and
realized weights.  (`real_weights` divides by the used capital; a zero
used capital would raise in Python, the rational model yields 0.) -/
def eq_get_weights (capital : ℚ) (rs : List EqStrategyRec)
    (cur asks bids : List (String × ℚ)) : EqWeighting :=
  let prices := eq_prices asks bids rs
  let avail := rs.filter (fun s => (dictGet prices s.asset_id).getD 0 ≠ 0)
  let tw := eq_target_weights avail
  let qn := eq_qn_loop capital tw prices avail
  { capital := capital
    strategy_records := avail
    current_positions := cur
    prices := prices
    target_weights := tw
    quantities := qn.1
    notional := qn.2.1
    real_weights := qn.2.1.map (fun p => (p.1, p.2 / qn.2.2))
    total_value := (qn.2.1.map Prod.snd).sum }

/-- Price selection of the alpaca `Weighting.get_weights` (lines 61-68):
`latest_asks.get(s.asset_id, 0)` with an explicit `None`-to-0 coercion. -/
def al_prices (asks bids : List (String × Option ℚ)) (rs : List AlStrategyRec) :
    List (String × ℚ) :=
  rs.foldl
    (fun m s =>
      let p :=
        if s.decision = some 1 then (dictGet asks s.asset_id).getD (some 0)
        else (dictGet bids s.asset_id).getD (some 0)
      dictSet m s.asset_id (p.getD 0))
    []

/-- The state of the alpaca `Weighting` after `get_weights`. -/
structure AlWeighting where
  capital : ℚ
  strategy_records : List AlStrategyRec
  current_positions : List (String × ℚ)
  prices : List (String × ℚ)
  target_weights : List (String × ℚ)
  quantities : List (String × ℚ)
  notional : List (String × ℚ)
  real_weights : List (String × ℚ)
  total_value : ℚ
deriving Repr

/-- One iteration of the quantity/notional accumulation loop of the alpaca
`Weighting.get_weights` (lines 80-101). -/
def al_qn_step (capital : ℚ) (tw prices : List (String × ℚ))
    (acc : List (String × ℚ) × List (String × ℚ) × ℚ) (s : AlStrategyRec) :
    List (String × ℚ) × List (String × ℚ) × ℚ :=
  let price := (dictGet prices s.asset_id).getD 0
  let q := al_quantity capital ((dictGet tw s.asset_id).getD 0) price
             s.asset_id_type
  let real_notional := q * price
  (dictSet acc.1 s.asset_id q, dictSet acc.2.1 s.asset_id real_notional,
   acc.2.2 + real_notional)

/-- The quantity/notional accumulation loop of the alpaca
`Weighting.get_weights` (lines 80-101). -/
def al_qn_loop (capital : ℚ) (tw prices : List (String × ℚ))
    (rs : List AlStrategyRec) :
    List (String × ℚ) × List (String × ℚ) × ℚ :=
  rs.foldl (al_qn_step capital tw prices) ([], [], 0)

/-- Embedding of `Weighting.get_weights` of the alpaca variant (alpaca
`weighting/weighting.py`, lines 56-108). -/
def al_get_weights (capital : ℚ) (rs : List AlStrategyRec)
    (cur : List (String × ℚ)) (asks bids : List (String × Option ℚ)) :
    AlWeighting :=
  let prices := al_prices asks bids rs
  let avail := rs.filter (fun s => (dictGet prices s.asset_id).getD 0 ≠ 0)
  let tw := avail.foldl (fun m s => dictSet m s.asset_id s.weight) []
  let qn := al_qn_loop capital tw prices avail
  { capital := capital
    strategy_records := avail
    current_positions := cur
    prices := prices
    target_weights := tw
    quantities := qn.1
    notional := qn.2.1
    real_weights := qn.2.1.map (fun p => (p.1, p.2 / qn.2.2))
    total_value := (qn.2.1.map Prod.snd).sum }

/-- Embedding of `Weighting.get_orders_params` of the equity variant (equity
`weighting/weighting.py`, lines 103-138): per record, the delta between
target and current quantity (current treated as absent when `None` **or**
falsy zero), bucketed into buy/sell orders by decision and sign.  The
equity variant applies **no** notional materiality threshold. -/
def eq_orders_step (w : EqWeighting) (acc : OrdersParams) (s : EqStrategyRec) :
    OrdersParams :=
  let target_quantity := (dictGet w.quantities s.asset_id).getD 0
  let curr_quantity := dictGet w.current_positions s.asset_id
  if s.decision = some 1 then
    let q := match coerceFalsy curr_quantity with
      | none => target_quantity
      | some c => target_quantity - c
    if q < 0 then { acc with sell := acc.sell ++ [⟨s.asset_id, q, OrderSide.sell⟩] }
    else if q > 0 then { acc with buy := acc.buy ++ [⟨s.asset_id, q, OrderSide.buy⟩] }
    else acc
  else
    let q := match coerceFalsy curr_quantity with
      | none => target_quantity
      | some c => target_quantity + c
    if q > 0 then { acc with sell := acc.sell ++ [⟨s.asset_id, q, OrderSide.sell⟩] }
    else if q < 0 then { acc with buy := acc.buy ++ [⟨s.asset_id, q, OrderSide.buy⟩] }
    else acc

/-- See the doc comment above `eq_orders_step`: the equity
`get_orders_params` folds the step over the candidate records. -/
def eq_get_orders_params (w : EqWeighting) : OrdersParams :=
  w.strategy_records.foldl (eq_orders_step w) {}

/-- Embedding of `Weighting.get_orders_params` of the alpaca variant (alpaca
`weighting/weighting.py`, lines 110-150): same delta computation, but an
order is appended only when `abs(quantity * price) > 1`. -/
def al_orders_step (w : AlWeighting) (acc : OrdersParams) (s : AlStrategyRec) :
    OrdersParams :=
  let target_quantity := (dictGet w.quantities s.asset_id).getD 0
  let curr_quantity := dictGet w.current_positions s.asset_id
  let price := (dictGet w.prices s.asset_id).getD 0
  if s.decision = some 1 then
    let q := match coerceFalsy curr_quantity with
      | none => target_quantity
      | some c => target_quantity - c
    if |q * price| > 1 then
      if q < 0 then { acc with sell := acc.sell ++ [⟨s.asset_id, q, OrderSide.sell⟩] }
      else if q > 0 then { acc with buy := acc.buy ++ [⟨s.asset_id, q, OrderSide.buy⟩] }
      else acc
    else acc
  else
    let q := match coerceFalsy curr_quantity with
      | none => target_quantity
      | some c => target_quantity + c
    if |q * price| > 1 then
      if q > 0 then { acc with sell := acc.sell ++ [⟨s.asset_id, q, OrderSide.sell⟩] }
      else if q < 0 then { acc with buy := acc.buy ++ [⟨s.asset_id, q, OrderSide.buy⟩] }
      else acc
    else acc

/-- See the doc comment above `al_orders_step`: the alpaca
`get_orders_params` folds the step over the candidate records. -/
def al_get_orders_params (w : AlWeighting) : OrdersParams :=
  w.strategy_records.foldl (al_orders_step w) {}

end PaperEngine

namespace PaperEngine

/-! ### Turnover-limited rebalance blend
(`src/alpaca/paper-engine-strategy/src/paper_engine_strategy/strategy/portfolio_optimization/po.py`,
`PortfolioOptimization.get_weights`, previous-weights branch, lines
92-126).  The uniform-weight generator and the `tc.adjust_alpha`
turnover-control policy are external collaborators (their helper module is
not part of this view); the fresh weights and the blend coefficient are
taken as inputs. -/

/-- A `[ticker, date, weight]` row of the portfolio-optimization code. -/
structure PoEntry where
  ticker : String
  date : String
  weight : ℚ
deriving DecidableEq, Repr

/-- Embedding of `target_weights = [[ticker, self.last_date, weight] for ticker, weight
in zip(assets_to_buy, buy_array)]` (po.py, lines 92-95). -/
def po_target_weights (assets_to_buy : List String) (buy_array : List ℚ)
    (last_date : String) : List PoEntry :=
  (assets_to_buy.zip buy_array).map (fun p => ⟨p.1, last_date, p.2⟩)

/-- Python's stable `list.sort(key=lambda x: x[0])` on entry rows. -/
def po_sort (l : List PoEntry) : List PoEntry :=
  List.insertionSort (fun a b => a.ticker ≤ b.ticker) l

/-- The post-union fresh target (po.py, lines 99-103): the fresh target
rows extended with a weight-0 row for every previous asset not bought.
The previous list is **not** symmetrically extended. -/
def po_extended_target (assets_to_buy : List String) (buy_array : List ℚ)
    (last_date : String) (previous_weights : List PoEntry) : List PoEntry :=
  let prev_assets := previous_weights.map PoEntry.ticker
  let excluded_assets := prev_assets.filter (fun a => ¬ a ∈ assets_to_buy)
  po_target_weights assets_to_buy buy_array last_date
    ++ excluded_assets.map (fun a => ⟨a, last_date, 0⟩)

/-- The previous-weights branch of `PortfolioOptimization.get_weights`
(po.py, lines 98-126): extend the fresh target with weight 0 for every
previous asset not bought (the previous list is **not** extended), sort
both lists by ticker, and blend pairwise over `zip(previous, target)` —
`zip` truncating to the shorter list — taking ticker and date from the
previous entry. -/
def po_get_weights_rebalance (assets_to_buy : List String)
    (buy_array : List ℚ) (last_date : String)
    (previous_weights : List PoEntry) (alpha : ℚ) : List PoEntry :=
  let targetS := po_sort
    (po_extended_target assets_to_buy buy_array last_date previous_weights)
  let prevS := po_sort previous_weights
  (prevS.zip targetS).map
    (fun p => ⟨p.1.ticker, p.1.date, alpha * p.1.weight + (1 - alpha) * p.2.weight⟩)

/-- First-match weight lookup in a `[ticker, date, weight]` row list
(weight 0 when the ticker is absent), used to state the per-asset blend. -/
def po_lookup : List PoEntry → String → ℚ
  | [], _ => 0
  | e :: t, a => if e.ticker = a then e.weight else po_lookup t a

/-- A minimal concrete instance of the abstract `State` contract, used to
witness the generic reconciliation-engine theorems on concrete inputs
(its `hash` is directly the content field, so witnesses evaluate). -/
structure SimpleState where
  k : Nat
  v : String
  event_id : Option Nat := none
  delivery_id : Option Nat := none
deriving DecidableEq, Repr

/-- The `StateOps` instance for `SimpleState`. -/
def simpleOps : StateOps SimpleState Nat :=
  ⟨SimpleState.k, SimpleState.v,
   fun s e d => { s with event_id := some e, delivery_id := some d },
   fun e d key => { k := key, v := "", event_id := some e, delivery_id := some d }⟩

/-- The nine content fields of an `Orders` record (everything except the
`event_id`/`delivery_id` persistence identifiers). -/
def Orders.value_fields (o : Orders) :
    Int × Int × String × String × String ×
      Option ℚ × Option ℚ × Option ℚ × Option ℚ :=
  (o.portfolio_id, o.side, o.asset_id_type, o.asset_id, o.order_ts,
   o.target_wgt, o.real_wgt, o.quantity, o.notional)

/-- The order delta of the weighting engines: target quantity minus the
current signed quantity (a missing or zero current position contributes
nothing), the sign convention inverted for short decisions
(`target + current`). -/
def al_delta (w : AlWeighting) (s : AlStrategyRec) : ℚ :=
  let target_quantity := (dictGet w.quantities s.asset_id).getD 0
  if s.decision = some 1 then
    match coerceFalsy (dictGet w.current_positions s.asset_id) with
    | none => target_quantity
    | some c => target_quantity - c
  else
    match coerceFalsy (dictGet w.current_positions s.asset_id) with
    | none => target_quantity
    | some c => target_quantity + c

/-- A concrete alpaca weighting state: one long candidate, target quantity
1, quoted price 3, no current position. -/
def c7_test_w : AlWeighting :=
  { capital := 12
    strategy_records := [⟨"X", "STOCK_TICKER", some 1, 1⟩]
    current_positions := []
    prices := [("X", 3)]
    target_weights := [("X", 1)]
    quantities := [("X", 1)]
    notional := [("X", 3)]
    real_weights := [("X", 1)]
    total_value := 3 }

instance : IsTotal PoEntry (fun a b => a.ticker ≤ b.ticker) :=
  ⟨fun a b => le_total a.ticker b.ticker⟩

instance : IsTrans PoEntry (fun a b => a.ticker ≤ b.ticker) :=
  ⟨fun _ _ _ h1 h2 => le_trans h1 h2⟩

/-- The instance `simpleOps` satisfies the `State` contract invariants. -/
theorem simpleOps_lawful : simpleOps.Lawful :=
  ⟨fun _ _ _ => rfl, fun _ _ _ => rfl, fun _ _ _ => rfl⟩

end PaperEngine

namespace PaperEngine

/-! ### Association-list (Python dict) lemmas -/

variable {S K : Type} [DecidableEq K]

theorem dictGet_dictSet (m : List (K × S)) (k k' : K) (v : S) :
    dictGet (dictSet m k v) k' = if k = k' then some v else dictGet m k' := by
  induction m with
  | nil => by_cases h : k = k' <;> simp [dictSet, dictGet, h]
  | cons p t ih =>
    obtain ⟨pk, pv⟩ := p
    by_cases h1 : pk = k
    · by_cases h2 : k = k' <;> simp [dictSet, dictGet, h1, h2]
    · by_cases h2 : pk = k'
      · have h3 : ¬ k = k' := fun h => h1 (h2.trans h.symm)
        simp [dictSet, dictGet, h1, h2, h3, Ne.symm h3]
      · simp [dictSet, dictGet, h1, h2, ih]

theorem dictGet_eq_none_iff (m : List (K × S)) (k : K) :
    dictGet m k = none ↔ ¬ k ∈ m.map Prod.fst := by
  induction m with
  | nil => simp [dictGet]
  | cons p t ih =>
    obtain ⟨pk, pv⟩ := p
    by_cases h : pk = k
    · simp [dictGet, h]
    · simp [dictGet, h, ih, not_or, Ne.symm h]

theorem dictSet_keys (m : List (K × S)) (k : K) (v : S) :
    (dictSet m k v).map Prod.fst =
      if k ∈ m.map Prod.fst then m.map Prod.fst else m.map Prod.fst ++ [k] := by
  induction m with
  | nil => simp [dictSet]
  | cons p t ih =>
    obtain ⟨pk, pv⟩ := p
    by_cases h : pk = k
    · simp [dictSet, h]
    · by_cases h2 : k ∈ t.map Prod.fst <;>
        simp [dictSet, h, ih, h2, Ne.symm h]

theorem dictSet_keys_mem (m : List (K × S)) (k : K) (v : S)
    (h : k ∈ m.map Prod.fst) :
    (dictSet m k v).map Prod.fst = m.map Prod.fst := by
  simp [dictSet_keys, h]

theorem dictSet_keys_nodup (m : List (K × S)) (k : K) (v : S)
    (h : (m.map Prod.fst).Nodup) : ((dictSet m k v).map Prod.fst).Nodup := by
  rw [dictSet_keys]
  by_cases hk : k ∈ m.map Prod.fst
  · simp [hk, h]
  · simp only [hk, if_false]
    exact h.append (List.nodup_singleton k)
      (fun a ha hmem => by
        simp only [List.mem_singleton] at hmem
        exact hk (hmem ▸ ha))

end PaperEngine

namespace PaperEngine

/-! ### C1: rolling baseline / chained amend -/

variable {S K : Type} [DecidableEq K]

/-- Claim C1 (rolling baseline / chained amend).  For the Reconciliation
Engine `compute_events`, a batch `curr = [r1, r2]` whose two records share
one key but have different hashes produces two chained events, the second
diffed against the just-emitted first: (i) with empty prior state, exactly
one CREATE of `r1` (ids assigned) and one AMEND of `r2` against the
just-emitted `r1`, and no REMOVE; (ii) with a prior state holding `b` at
that key with a hash differing from `r1`, exactly two AMENDs — the first
against the persisted prior value `b`, the second against the just-emitted
`r1` — and never one event of `r2` against `b` or against nothing. -/
theorem C1_rolling_baseline_chained_amend (ops : StateOps S K)
    (hL : ops.Lawful) (d e0 r0 : Nat) (r1 r2 : S)
    (hk : ops.key r1 = ops.key r2) (hh : ops.hash r1 ≠ ops.hash r2) :
    (compute_events ops d e0 r0 [r1, r2] [] =
      ⟨[⟨EventType.CREATE, ops.withIds r1 e0 d, none⟩],
       [⟨EventType.AMEND, ops.withIds r2 (e0 + 1) d,
         some (ops.withIds r1 e0 d)⟩], []⟩)
    ∧ (∀ b : S, ops.hash b ≠ ops.hash r1 →
        compute_events ops d e0 r0 [r1, r2] [(ops.key r1, b)] =
          ⟨[],
           [⟨EventType.AMEND, ops.withIds r1 e0 d, some b⟩,
            ⟨EventType.AMEND, ops.withIds r2 (e0 + 1) d,
             some (ops.withIds r1 e0 d)⟩], []⟩) := by
  constructor
  · have h2 : ops.hash r2 ≠ ops.hash (ops.withIds r1 e0 d) := by
      rw [hL.hash_withIds]
      exact fun h => hh h.symm
    simp [compute_events, diffPass, removalPass, dictGet, dictSet,
      hL.key_withIds, hk, h2, dictGet_dictSet]
  · intro b hb
    have h1 : ops.hash r1 ≠ ops.hash b := fun h => hb h.symm
    have h2 : ops.hash r2 ≠ ops.hash (ops.withIds r1 e0 d) := by
      rw [hL.hash_withIds]
      exact fun h => hh h.symm
    simp [compute_events, diffPass, removalPass, dictGet, dictSet,
      hL.key_withIds, hk, h1, h2, dictGet_dictSet]

/-- Witness for C1: concrete two-record batch with key 1 and contents
`"a"`/`"b"`, delivery id 7, event-id seeds 10 and 20, prior value `"c"`. -/
theorem C1_witness :
    (compute_events simpleOps 7 10 20
        [⟨1, "a", none, none⟩, ⟨1, "b", none, none⟩] [] =
      ⟨[⟨EventType.CREATE, ⟨1, "a", some 10, some 7⟩, none⟩],
       [⟨EventType.AMEND, ⟨1, "b", some 11, some 7⟩,
         some ⟨1, "a", some 10, some 7⟩⟩], []⟩)
    ∧ (compute_events simpleOps 7 10 20
        [⟨1, "a", none, none⟩, ⟨1, "b", none, none⟩] [(1, ⟨1, "c", none, none⟩)] =
      ⟨[],
       [⟨EventType.AMEND, ⟨1, "a", some 10, some 7⟩, some ⟨1, "c", none, none⟩⟩,
        ⟨EventType.AMEND, ⟨1, "b", some 11, some 7⟩,
         some ⟨1, "a", some 10, some 7⟩⟩], []⟩) := by
  have h := C1_rolling_baseline_chained_amend simpleOps simpleOps_lawful
    7 10 20 ⟨1, "a", none, none⟩ ⟨1, "b", none, none⟩ rfl (by decide)
  exact ⟨h.1, h.2 ⟨1, "c", none, none⟩ (by decide)⟩

end PaperEngine

namespace PaperEngine

/-! ### C2: removal completeness -/

variable {S K : Type} [DecidableEq K]

theorem dictGet_some_mem {m : List (K × S)} {k : K} {v : S}
    (h : dictGet m k = some v) : k ∈ m.map Prod.fst := by
  by_contra hmem
  rw [(dictGet_eq_none_iff m k).mpr hmem] at h
  cases h

/-- The diff pass never touches a baseline entry whose key does not occur
in `curr`. -/
theorem diffPass_base_stable (ops : StateOps S K) (hL : ops.Lawful) (d : Nat) :
    ∀ (curr : List S) (n : Nat) (base : List (K × S)) (k : K),
      ¬ k ∈ curr.map ops.key →
      dictGet (diffPass ops d n base curr).base k = dictGet base k := by
  intro curr
  induction curr with
  | nil => intro n base k _; rfl
  | cons item rest ih =>
    intro n base k hk
    simp only [List.map_cons, List.mem_cons, not_or] at hk
    obtain ⟨hk1, hk2⟩ := hk
    cases hb : dictGet base (ops.key item) with
    | some b =>
      by_cases hh : ops.hash item = ops.hash b
      · simp only [diffPass, hb, if_pos hh]
        exact ih n base k hk2
      · simp only [diffPass, hb, if_neg hh]
        rw [ih _ _ k hk2, dictGet_dictSet, hL.key_withIds,
          if_neg (fun h => hk1 h.symm)]
    | none =>
      simp only [diffPass, hb]
      rw [ih _ _ k hk2, dictGet_dictSet, hL.key_withIds,
        if_neg (fun h => hk1 h.symm)]

/-- The diff pass only adds keys of `curr` to the baseline, at its end. -/
theorem diffPass_base_keys (ops : StateOps S K) (hL : ops.Lawful) (d : Nat) :
    ∀ (curr : List S) (n : Nat) (base : List (K × S)),
      ∃ extra : List K,
        (diffPass ops d n base curr).base.map Prod.fst =
          base.map Prod.fst ++ extra ∧ ∀ x ∈ extra, x ∈ curr.map ops.key := by
  intro curr
  induction curr with
  | nil => intro n base; exact ⟨[], by simp [diffPass]⟩
  | cons item rest ih =>
    intro n base
    cases hb : dictGet base (ops.key item) with
    | some b =>
      by_cases hh : ops.hash item = ops.hash b
      · obtain ⟨extra, he, hsub⟩ := ih n base
        refine ⟨extra, ?_, fun x hx => List.mem_cons_of_mem _ (hsub x hx)⟩
        simpa only [diffPass, hb, if_pos hh] using he
      · obtain ⟨extra, he, hsub⟩ :=
          ih (n + 1) (dictSet base (ops.key (ops.withIds item n d)) (ops.withIds item n d))
        refine ⟨extra, ?_, fun x hx => List.mem_cons_of_mem _ (hsub x hx)⟩
        simp only [diffPass, hb, if_neg hh]
        rw [he, dictSet_keys_mem]
        rw [hL.key_withIds]
        exact dictGet_some_mem hb
    | none =>
      obtain ⟨extra, he, hsub⟩ :=
        ih (n + 1) (dictSet base (ops.key (ops.withIds item n d)) (ops.withIds item n d))
      refine ⟨ops.key item :: extra, ?_, ?_⟩
      · simp only [diffPass, hb]
        rw [he, dictSet_keys, hL.key_withIds,
          if_neg ((dictGet_eq_none_iff base (ops.key item)).mp hb), List.append_assoc]
        rfl
      · intro x hx
        rcases List.mem_cons.mp hx with h | h
        · exact h ▸ List.mem_cons_self _ _
        · exact List.mem_cons_of_mem _ (hsub x h)

/-- Claim C2 (removal completeness by key-set difference).  For every prior
state `prev` (a map: distinct keys) and every batch `curr`,
`compute_events` emits exactly one REMOVE event per key of the baseline
absent from the keys of `curr` — regardless of the record's content — the
event's `curr` being the `removal_instance` tombstone carrying that key
and fresh consecutive event ids (seed `r0`) with this delivery's id, and
the event's `prev` being the persisted baseline record for that key; no
REMOVE event is emitted for any key occurring in `curr`. -/
theorem C2_removal_completeness (ops : StateOps S K) (hL : ops.Lawful)
    (d e0 r0 : Nat) (curr : List S) (prev : List (K × S))
    (hnd : (prev.map Prod.fst).Nodup) :
    ((compute_events ops d e0 r0 curr prev).remove =
      ((prev.map Prod.fst).filter (fun k => ¬ k ∈ curr.map ops.key)).enum.map
        (fun p => ⟨EventType.REMOVE, ops.removal_instance (r0 + p.1) d p.2,
                   dictGet prev p.2⟩))
    ∧ ((compute_events ops d e0 r0 curr prev).remove.map (fun e => ops.key e.curr) =
        (prev.map Prod.fst).filter (fun k => ¬ k ∈ curr.map ops.key))
    ∧ (∀ e ∈ (compute_events ops d e0 r0 curr prev).remove,
        e.event_type = EventType.REMOVE ∧ ¬ ops.key e.curr ∈ curr.map ops.key)
    ∧ ((prev.map Prod.fst).filter (fun k => ¬ k ∈ curr.map ops.key)).Nodup := by
  obtain ⟨extra, hkeys, hsub⟩ := diffPass_base_keys ops hL d curr e0 prev
  have hfilter :
      ((diffPass ops d e0 prev curr).base.map Prod.fst).filter
          (fun k => ¬ k ∈ curr.map ops.key) =
        (prev.map Prod.fst).filter (fun k => ¬ k ∈ curr.map ops.key) := by
    rw [hkeys, List.filter_append]
    have : extra.filter (fun k => ¬ k ∈ curr.map ops.key) = [] := by
      rw [List.filter_eq_nil_iff]
      intro a ha
      simpa using hsub a ha
    rw [this, List.append_nil]
  have hmain :
      (compute_events ops d e0 r0 curr prev).remove =
        ((prev.map Prod.fst).filter (fun k => ¬ k ∈ curr.map ops.key)).enum.map
          (fun p => ⟨EventType.REMOVE, ops.removal_instance (r0 + p.1) d p.2,
                     dictGet prev p.2⟩) := by
    show removalPass ops d r0 (diffPass ops d e0 prev curr).base (curr.map ops.key) =
      _
    unfold removalPass
    rw [hfilter]
    refine List.map_congr_left ?_
    intro p hp
    have hp2 : p.2 ∈ (prev.map Prod.fst).filter (fun k => ¬ k ∈ curr.map ops.key) := by
      have := List.mem_enum_iff_get?.mp hp
      exact List.get?_mem this
    have hnotin : ¬ p.2 ∈ curr.map ops.key := by
      simpa using List.of_mem_filter hp2
    rw [diffPass_base_stable ops hL d curr e0 prev p.2 hnotin]
  have hkeymap :
      (compute_events ops d e0 r0 curr prev).remove.map (fun e => ops.key e.curr) =
        (prev.map Prod.fst).filter (fun k => ¬ k ∈ curr.map ops.key) := by
    rw [hmain, List.map_map]
    have : ((fun e : EventLog S => ops.key e.curr) ∘
        (fun p : Nat × K => (⟨EventType.REMOVE,
          ops.removal_instance (r0 + p.1) d p.2, dictGet prev p.2⟩ : EventLog S))) =
        fun p : Nat × K => p.2 := by
      funext p
      exact hL.key_removal _ _ _
    rw [this, List.enum_map_snd]
  refine ⟨hmain, hkeymap, ?_, List.Nodup.filter _ hnd⟩
  intro e he
  constructor
  · rw [hmain] at he
    obtain ⟨p, _, hpe⟩ := List.mem_map.mp he
    rw [← hpe]
  · have : ops.key e.curr ∈
        (compute_events ops d e0 r0 curr prev).remove.map (fun e => ops.key e.curr) :=
      List.mem_map_of_mem _ he
    rw [hkeymap] at this
    simpa using List.of_mem_filter this

/-- Witness for C2: `prev = [A: v1, B: v2]`, `curr = [A(v1)]` yields exactly
one REMOVE, for key `B = 2`, with a fresh event id from the removal seed
20, tombstone carrying the key, and `prev` side the persisted record. -/
theorem C2_witness :
    (compute_events simpleOps 7 10 20
        [⟨1, "v1", none, none⟩]
        [(1, ⟨1, "v1", none, none⟩), (2, ⟨2, "v2", none, none⟩)]).remove =
      [⟨EventType.REMOVE, ⟨2, "", some 20, some 7⟩, some ⟨2, "v2", none, none⟩⟩] := by
  have h := C2_removal_completeness simpleOps simpleOps_lawful 7 10 20
    [⟨1, "v1", none, none⟩]
    [(1, ⟨1, "v1", none, none⟩), (2, ⟨2, "v2", none, none⟩)] (by decide)
  exact h.1.trans (by decide)

end PaperEngine

namespace PaperEngine

/-! ### C3: reconciliation idempotence -/

variable {S K : Type} [DecidableEq K]

theorem dictGet_filter_mem (l : List (K × S)) (ks : List K) (k : K)
    (hk : k ∈ ks) :
    dictGet (l.filter (fun p => p.1 ∈ ks)) k = dictGet l k := by
  induction l with
  | nil => rfl
  | cons p t ih =>
    obtain ⟨pk, pv⟩ := p
    by_cases h1 : pk = k
    · subst h1
      simp [dictGet, hk, List.filter_cons]
    · by_cases h2 : pk ∈ ks <;> simp [dictGet, List.filter_cons, h1, h2, ih]

theorem filter_keys_map (l : List (K × S)) (ks : List K) :
    (l.filter (fun p => p.1 ∈ ks)).map Prod.fst =
      (l.map Prod.fst).filter (fun k => k ∈ ks) := by
  induction l with
  | nil => rfl
  | cons p t ih =>
    by_cases h : p.1 ∈ ks <;> simp [List.filter_cons, h, ih]

/-- If the baseline holds an entry of hash `h` at key `k` and every record
of `curr` with key `k` has hash `h`, the final baseline still holds an
entry of hash `h` at `k`. -/
theorem diffPass_base_hash_stable (ops : StateOps S K) (hL : ops.Lawful)
    (d : Nat) :
    ∀ (curr : List S) (n : Nat) (base : List (K × S)) (k : K) (h : String),
      (∃ b, dictGet base k = some b ∧ ops.hash b = h) →
      (∀ r ∈ curr, ops.key r = k → ops.hash r = h) →
      ∃ b, dictGet (diffPass ops d n base curr).base k = some b ∧ ops.hash b = h := by
  intro curr
  induction curr with
  | nil => intro n base k h hbase _; exact hbase
  | cons item rest ih =>
    intro n base k h hbase hcurr
    have hrest : ∀ r ∈ rest, ops.key r = k → ops.hash r = h :=
      fun r hr => hcurr r (List.mem_cons_of_mem _ hr)
    cases hb : dictGet base (ops.key item) with
    | some b0 =>
      by_cases hh : ops.hash item = ops.hash b0
      · simp only [diffPass, hb, if_pos hh]
        exact ih n base k h hbase hrest
      · simp only [diffPass, hb, if_neg hh]
        refine ih _ _ k h ?_ hrest
        by_cases hkk : ops.key item = k
        · refine ⟨ops.withIds item n d, ?_, ?_⟩
          · rw [dictGet_dictSet, hL.key_withIds, if_pos hkk]
          · rw [hL.hash_withIds]
            exact hcurr item (List.mem_cons_self _ _) hkk
        · obtain ⟨b, hb1, hb2⟩ := hbase
          refine ⟨b, ?_, hb2⟩
          rw [dictGet_dictSet, hL.key_withIds, if_neg hkk]
          exact hb1
    | none =>
      simp only [diffPass, hb]
      refine ih _ _ k h ?_ hrest
      by_cases hkk : ops.key item = k
      · obtain ⟨b, hb1, _⟩ := hbase
        rw [hkk] at hb
        rw [hb] at hb1
        cases hb1
      · obtain ⟨b, hb1, hb2⟩ := hbase
        refine ⟨b, ?_, hb2⟩
        rw [dictGet_dictSet, hL.key_withIds, if_neg hkk]
        exact hb1

/-- After the diff pass, every key of `curr` has a baseline entry whose
hash equals the common hash of the `curr` records with that key. -/
theorem diffPass_base_covers (ops : StateOps S K) (hL : ops.Lawful) (d : Nat) :
    ∀ (curr : List S) (n : Nat) (base : List (K × S)) (r : S),
      r ∈ curr →
      (∀ r' ∈ curr, ops.key r' = ops.key r → ops.hash r' = ops.hash r) →
      ∃ b, dictGet (diffPass ops d n base curr).base (ops.key r) = some b ∧
        ops.hash b = ops.hash r := by
  intro curr
  induction curr with
  | nil => intro n base r hr; cases hr
  | cons item rest ih =>
    intro n base r hr hsame
    have hrest_same : ∀ r' ∈ rest, ops.key r' = ops.key r → ops.hash r' = ops.hash r :=
      fun r' hr' => hsame r' (List.mem_cons_of_mem _ hr')
    rcases List.mem_cons.mp hr with hri | hri
    · subst hri
      cases hb : dictGet base (ops.key r) with
      | some b0 =>
        by_cases hh : ops.hash r = ops.hash b0
        · simp only [diffPass, hb, if_pos hh]
          exact diffPass_base_hash_stable ops hL d rest n base (ops.key r)
            (ops.hash r) ⟨b0, hb, hh.symm⟩ hrest_same
        · simp only [diffPass, hb, if_neg hh]
          refine diffPass_base_hash_stable ops hL d rest _ _ (ops.key r)
            (ops.hash r) ⟨ops.withIds r n d, ?_, hL.hash_withIds r n d⟩ hrest_same
          rw [dictGet_dictSet, hL.key_withIds, if_pos rfl]
      | none =>
        simp only [diffPass, hb]
        refine diffPass_base_hash_stable ops hL d rest _ _ (ops.key r)
          (ops.hash r) ⟨ops.withIds r n d, ?_, hL.hash_withIds r n d⟩ hrest_same
        rw [dictGet_dictSet, hL.key_withIds, if_pos rfl]
    · cases hb : dictGet base (ops.key item) with
      | some b0 =>
        by_cases hh : ops.hash item = ops.hash b0
        · simp only [diffPass, hb, if_pos hh]
          exact ih n base r hri hrest_same
        · simp only [diffPass, hb, if_neg hh]
          exact ih _ _ r hri hrest_same
      | none =>
        simp only [diffPass, hb]
        exact ih _ _ r hri hrest_same

/-- A diff pass in which every record finds a baseline entry of equal hash
at its key emits nothing and leaves the baseline and the cursor alone. -/
theorem diffPass_noop (ops : StateOps S K) (d : Nat) :
    ∀ (curr : List S) (n : Nat) (base : List (K × S)),
      (∀ r ∈ curr, ∃ b, dictGet base (ops.key r) = some b ∧
        ops.hash b = ops.hash r) →
      diffPass ops d n base curr = ⟨[], [], base, n⟩ := by
  intro curr
  induction curr with
  | nil => intro n base _; rfl
  | cons item rest ih =>
    intro n base hcov
    obtain ⟨b, hb1, hb2⟩ := hcov item (List.mem_cons_self _ _)
    simp only [diffPass, hb1, if_pos hb2.symm]
    exact ih n base (fun r hr => hcov r (List.mem_cons_of_mem _ hr))

/-- Counterexample to claim C3.  The idempotence claim fails as stated: with
empty prior state and `curr = [A(v1), A(v2)]` (one key, two different
contents), re-running `compute_events` on the same `curr` with the second
run's `prev` equal to the baseline map produced by the first run emits two
AMEND events (first `v1` against the baseline `v2`, then `v2` against the
just-emitted `v1`), not zero events. -/
theorem C3_counterexample :
    ((compute_events simpleOps 8 30 40
        [⟨1, "v1", none, none⟩, ⟨1, "v2", none, none⟩]
        (diffPass simpleOps 7 10 []
          [⟨1, "v1", none, none⟩, ⟨1, "v2", none, none⟩]).base).amend.length = 2)
    ∧ (diffPass simpleOps 7 10 []
        [⟨1, "v1", none, none⟩, ⟨1, "v2", none, none⟩]).base =
      [(1, ⟨1, "v2", some 11, some 7⟩)] := by
  constructor <;> decide

/-- Claim C3 (amended): reconciliation idempotence holds for batches in which
records sharing a key share a hash (in particular for batches without
repeated keys), taking the second run's `prev` to be the first run's
baseline restricted to the keys of `curr` — which is the state the
delivery persists, the keys outside `curr` having been removed.  The
second run then emits zero CREATE, AMEND and REMOVE events. -/
theorem C3_idempotence_amended (ops : StateOps S K) (hL : ops.Lawful)
    (d1 e1 d2 e2 r2 : Nat) (curr : List S) (prev : List (K × S))
    (hsame : ∀ r ∈ curr, ∀ r' ∈ curr,
      ops.key r = ops.key r' → ops.hash r = ops.hash r') :
    compute_events ops d2 e2 r2 curr
      ((diffPass ops d1 e1 prev curr).base.filter
        (fun p => p.1 ∈ curr.map ops.key)) = ⟨[], [], []⟩ := by
  have hcov : ∀ r ∈ curr, ∃ b,
      dictGet ((diffPass ops d1 e1 prev curr).base.filter
        (fun p => p.1 ∈ curr.map ops.key)) (ops.key r) = some b ∧
      ops.hash b = ops.hash r := by
    intro r hr
    rw [dictGet_filter_mem _ _ _ (List.mem_map_of_mem ops.key hr)]
    exact diffPass_base_covers ops hL d1 curr e1 prev r hr
      (fun r' hr' h => hsame r' hr' r hr h)
  have hnoop := diffPass_noop ops d2 curr e2 _ hcov
  show (⟨(diffPass ops d2 e2 _ curr).create, (diffPass ops d2 e2 _ curr).amend,
    removalPass ops d2 r2 (diffPass ops d2 e2 _ curr).base
      (curr.map ops.key)⟩ : Events S) = ⟨[], [], []⟩
  rw [hnoop]
  have hempty :
      (((diffPass ops d1 e1 prev curr).base.filter
          (fun p => p.1 ∈ curr.map ops.key)).map Prod.fst).filter
        (fun k => ¬ k ∈ curr.map ops.key) = [] := by
    rw [filter_keys_map, List.filter_eq_nil_iff]
    intro a ha
    have := List.of_mem_filter ha
    simpa using this
  show (⟨[], [],
    removalPass ops d2 r2 ((diffPass ops d1 e1 prev curr).base.filter
      (fun p => p.1 ∈ curr.map ops.key)) (curr.map ops.key)⟩ : Events S) = _
  unfold removalPass
  rw [hempty]
  rfl

/-- Witness for C3 (amended): a batch repeating key 1 with identical
content and a prior state holding an unrelated key 2; the second run on
the persisted state emits nothing. -/
theorem C3_witness :
    compute_events simpleOps 8 30 40
      [⟨1, "v1", none, none⟩, ⟨1, "v1", none, none⟩]
      ((diffPass simpleOps 7 10 [(2, ⟨2, "w", none, none⟩)]
          [⟨1, "v1", none, none⟩, ⟨1, "v1", none, none⟩]).base.filter
        (fun p => p.1 ∈ [⟨1, "v1", none, none⟩,
          (⟨1, "v1", none, none⟩ : SimpleState)].map simpleOps.key)) =
      ⟨[], [], []⟩ :=
  C3_idempotence_amended simpleOps simpleOps_lawful 7 10 8 30 40
    [⟨1, "v1", none, none⟩, ⟨1, "v1", none, none⟩]
    [(2, ⟨2, "w", none, none⟩)] (by decide)

end PaperEngine

namespace PaperEngine

/-! ### C4: the content-fingerprint contract of `Orders.hash` -/

theorem Orders.hash_eq_of_value_fields_eq {o o' : Orders}
    (h : o.value_fields = o'.value_fields) : o.hash = o'.hash := by
  cases o
  cases o'
  simp only [Orders.value_fields, Prod.mk.injEq] at h
  obtain ⟨h1, h2, h3, h4, h5, h6, h7, h8, h9⟩ := h
  simp only [Orders.hash, h1, h2, h3, h4, h5, h6, h7, h8, h9]

theorem Orders.value_fields_withIds (o : Orders) (e d : Nat) :
    (o.withIds e d).value_fields = o.value_fields := rfl

/-- The instance `ordersOps` satisfies the `State` contract invariants. -/
theorem ordersOps_lawful : ordersOps.Lawful :=
  ⟨fun _ _ _ => rfl, fun _ _ _ => rfl, fun _ _ _ => rfl⟩

/-- Claim C4 (content-fingerprint contract).  `Orders.hash` is a
deterministic digest over the nine record fields only: (i) any two records
with identical value fields hash identically, however they were
constructed (`from_source`, `from_target`, `removal_instance` and direct
field assignment all build plain `Orders` values, so (i) covers them all);
(ii) writing any `event_id` and `delivery_id` never changes the hash;
(iii) a record parsed by `from_source` and one parsed by `from_target`
from rows carrying the same nine value slots hash identically, whatever
stored hash and identifiers the target row carries. -/
theorem C4_hash_contract :
    (∀ o o' : Orders, o.value_fields = o'.value_fields → o.hash = o'.hash)
    ∧ (∀ (o : Orders) (e d : Option Nat),
        ({ o with event_id := e, delivery_id := d } : Orders).hash = o.hash)
    ∧ (∀ (r : OrdersSourceRecord) (t : OrdersTargetRecord),
        t.t0 = r.r0 → t.t1 = r.r1 → t.t2 = r.r2 → t.t3 = r.r3 → t.t4 = r.r4 →
        t.t5 = r.r5 → t.t6 = r.r6 → t.t7 = r.r7 → t.t8 = r.r8 →
        (Orders.from_target t).hash = (Orders.from_source r).hash) := by
  refine ⟨fun o o' h => Orders.hash_eq_of_value_fields_eq h, fun o e d => rfl, ?_⟩
  intro r t h0 h1 h2 h3 h4 h5 h6 h7 h8
  apply Orders.hash_eq_of_value_fields_eq
  simp only [Orders.from_target, Orders.from_source, Orders.value_fields,
    h0, h1, h2, h3, h4, h5, h6, h7, h8]

/-- Witness for C4: a parsed source record and a directly-built record with
other identifiers share the value fields, hence the hash; a target row
carrying a stale stored hash and identifiers parses to the same hash as
the source row with the same value slots. -/
theorem C4_witness :
    ((Orders.from_source ⟨1, 1, "TICKER", "AAPL", "T1", some 1, none, some 2, none⟩).hash
      = ({ portfolio_id := 1, side := 1, asset_id_type := "TICKER",
           asset_id := "AAPL", order_ts := "T1", target_wgt := some 1,
           real_wgt := none, quantity := some 2, notional := none,
           event_id := some 99, delivery_id := some 42 } : Orders).hash)
    ∧ (({ portfolio_id := 5, asset_id := "X", order_ts := "T2",
          event_id := some 1, delivery_id := some 2 } : Orders).hash
        = ({ portfolio_id := 5, asset_id := "X", order_ts := "T2",
             event_id := some 7, delivery_id := some 8 } : Orders).hash)
    ∧ ((Orders.from_target ⟨1, 1, "TICKER", "AAPL", "T1", some 1, none, some 2,
          none, "stale-stored-hash", some 3, some 4⟩).hash
        = (Orders.from_source ⟨1, 1, "TICKER", "AAPL", "T1", some 1, none,
            some 2, none⟩).hash) := by
  refine ⟨?_, ?_, ?_⟩
  · exact C4_hash_contract.1 _ _ rfl
  · exact C4_hash_contract.1 _ _ rfl
  · exact C4_hash_contract.2.2 _ _ rfl rfl rfl rfl rfl rfl rfl rfl rfl

end PaperEngine

namespace PaperEngine

/-! ### C8: change-mask semantics -/

theorem ite_bit_length (P : Prop) [Decidable P] :
    (if P then ("1" : String) else "0").length = 1 := by
  by_cases h : P <;> simp [h] <;> rfl

theorem ite_bit_data (P : Prop) [Decidable P] :
    (if P then ("1" : String) else "0").data = [if P then '1' else '0'] := by
  by_cases h : P <;> simp [h]

/-- Counterexample to claim C8.  The claim quantifies over every event log
entry, but an entry tagged `POINTLESS_AMEND` with no previous state is
masked by the `prev is None` branch first, yielding all-ones instead of
the claimed all-zeros. -/
theorem C8_counterexample :
    (OrdersLog.from_states EventType.POINTLESS_AMEND
      { portfolio_id := 1, asset_id := "A", order_ts := "T" } none).mask =
      "111111111" := by
  rfl

/-- Claim C8, amended (change-mask semantics).  For every `OrdersLog` entry:
(i) the mask always has one bit per value field (length 9);
(ii) CREATE/REMOVE/RECREATE entries are masked all-ones;
(iii) a POINTLESS_AMEND entry **carrying a previous state** is masked
all-zeros (with no previous state the `prev is None` branch masks it
all-ones);
(iv) an AMEND entry carrying a previous state has one bit per field, `'1'`
exactly when the field differs between `curr` and `prev`;
(v) in particular an AMEND whose records differ exactly in `quantity` is
masked `"000000010"` — a single `'1'`, at the position of `quantity`. -/
theorem C8_mask_semantics :
    (∀ l : OrdersLog, l.mask.length = 9)
    ∧ (∀ l : OrdersLog,
        l.event_type = EventType.CREATE ∨ l.event_type = EventType.REMOVE ∨
          l.event_type = EventType.RECREATE → l.mask = "111111111")
    ∧ (∀ (l : OrdersLog) (p : Orders), l.prev = some p →
        l.event_type = EventType.POINTLESS_AMEND → l.mask = "000000000")
    ∧ (∀ (l : OrdersLog) (p : Orders), l.prev = some p →
        l.event_type = EventType.AMEND →
        l.mask.data =
          [if l.curr.portfolio_id ≠ p.portfolio_id then '1' else '0',
           if l.curr.side ≠ p.side then '1' else '0',
           if l.curr.asset_id_type ≠ p.asset_id_type then '1' else '0',
           if l.curr.asset_id ≠ p.asset_id then '1' else '0',
           if l.curr.order_ts ≠ p.order_ts then '1' else '0',
           if l.curr.target_wgt ≠ p.target_wgt then '1' else '0',
           if l.curr.real_wgt ≠ p.real_wgt then '1' else '0',
           if l.curr.quantity ≠ p.quantity then '1' else '0',
           if l.curr.notional ≠ p.notional then '1' else '0'])
    ∧ (∀ c p : Orders, c.portfolio_id = p.portfolio_id → c.side = p.side →
        c.asset_id_type = p.asset_id_type → c.asset_id = p.asset_id →
        c.order_ts = p.order_ts → c.target_wgt = p.target_wgt →
        c.real_wgt = p.real_wgt → c.notional = p.notional →
        c.quantity ≠ p.quantity →
        (OrdersLog.from_states EventType.AMEND c (some p)).mask = "000000010") := by
  have hamend : ∀ (l : OrdersLog) (p : Orders), l.prev = some p →
      l.event_type = EventType.AMEND →
      l.mask =
        (if l.curr.portfolio_id ≠ p.portfolio_id then "1" else "0")
          ++ (if l.curr.side ≠ p.side then "1" else "0")
          ++ (if l.curr.asset_id_type ≠ p.asset_id_type then "1" else "0")
          ++ (if l.curr.asset_id ≠ p.asset_id then "1" else "0")
          ++ (if l.curr.order_ts ≠ p.order_ts then "1" else "0")
          ++ (if l.curr.target_wgt ≠ p.target_wgt then "1" else "0")
          ++ (if l.curr.real_wgt ≠ p.real_wgt then "1" else "0")
          ++ (if l.curr.quantity ≠ p.quantity then "1" else "0")
          ++ (if l.curr.notional ≠ p.notional then "1" else "0") := by
    intro l p hp he
    obtain ⟨et, c, pr⟩ := l
    simp only at hp he
    subst hp
    subst he
    simp [OrdersLog.mask]
  refine ⟨?_, ?_, ?_, ?_, ?_⟩
  · intro l
    obtain ⟨et, c, pr⟩ := l
    cases pr with
    | none => rfl
    | some p =>
      by_cases h1 : et = EventType.CREATE ∨ et = EventType.REMOVE ∨
          et = EventType.RECREATE
      · simp only [OrdersLog.mask, h1, if_true]
        rfl
      · by_cases h2 : et = EventType.POINTLESS_AMEND
        · simp only [OrdersLog.mask, h1, h2, if_false, if_true]
          rfl
        · simp only [OrdersLog.mask, h1, h2, if_false, String.length_append,
            ite_bit_length]
  · intro l h
    obtain ⟨et, c, pr⟩ := l
    simp only at h
    cases pr with
    | none => rfl
    | some p =>
      rcases h with h | h | h <;> subst h <;> simp [OrdersLog.mask]
  · intro l p hp he
    obtain ⟨et, c, pr⟩ := l
    simp only at hp he
    subst hp
    subst he
    simp [OrdersLog.mask]
  · intro l p hp he
    rw [hamend l p hp he]
    simp only [String.data_append, ite_bit_data, List.cons_append, List.nil_append]
  · intro c p h1 h2 h3 h4 h5 h6 h7 h9 hq
    rw [hamend (OrdersLog.from_states EventType.AMEND c (some p)) p rfl rfl]
    simp only [OrdersLog.from_states, h1, h2, h3, h4, h5, h6, h7, h9,
      ne_eq, not_true_eq_false, if_false, hq, not_false_eq_true, if_true]
    rfl

/-- Witness for C8 (amended): a concrete AMEND differing exactly in
`quantity` is masked `"000000010"`; a concrete POINTLESS_AMEND with a
previous state is masked all-zeros. -/
theorem C8_witness :
    ((OrdersLog.from_states EventType.AMEND
        { portfolio_id := 1, side := 1, asset_id_type := "TICKER",
          asset_id := "AAPL", order_ts := "T1", quantity := some 3 }
        (some { portfolio_id := 1, side := 1, asset_id_type := "TICKER",
                asset_id := "AAPL", order_ts := "T1", quantity := some 4 })).mask
      = "000000010")
    ∧ ((OrdersLog.from_states EventType.POINTLESS_AMEND
        { portfolio_id := 1, asset_id := "A", order_ts := "T" }
        (some { portfolio_id := 1, asset_id := "A", order_ts := "T" })).mask
      = "000000000") := by
  constructor
  · exact C8_mask_semantics.2.2.2.2 _ _ rfl rfl rfl rfl rfl rfl rfl rfl
      (by decide)
  · exact C8_mask_semantics.2.2.1 _ _ rfl rfl

end PaperEngine

namespace PaperEngine

/-! ### C10: implicit zero-coercion at the parsing interface -/

/-- Claim C10 (implicit zero-coercion).  `from_source` and `from_target` run
each optional numeric slot through Python's `x if x else None`, so a raw
zero (`Decimal("0")`, falsy) parses exactly like an absent value: (i)-(iv)
a source row with `target_wgt`, `real_wgt`, `quantity` or `notional` slot
`0` parses to the same record — hence the same hash — as the row with that
slot absent; (v) likewise for `from_target`; (vi) the parsed record
carries `none`; (vii) round-tripping a record holding `quantity = 0`
through `as_tuple` then `from_target` turns the zero into `none`, so the
zero is not preserved. -/
theorem C10_zero_coercion :
    (∀ r : OrdersSourceRecord,
      Orders.from_source { r with r5 := some 0 } =
        Orders.from_source { r with r5 := none })
    ∧ (∀ r : OrdersSourceRecord,
      Orders.from_source { r with r6 := some 0 } =
        Orders.from_source { r with r6 := none })
    ∧ (∀ r : OrdersSourceRecord,
      Orders.from_source { r with r7 := some 0 } =
        Orders.from_source { r with r7 := none }
      ∧ (Orders.from_source { r with r7 := some 0 }).hash =
        (Orders.from_source { r with r7 := none }).hash
      ∧ (Orders.from_source { r with r7 := some 0 }).quantity = none)
    ∧ (∀ r : OrdersSourceRecord,
      Orders.from_source { r with r8 := some 0 } =
        Orders.from_source { r with r8 := none })
    ∧ (∀ t : OrdersTargetRecord,
      Orders.from_target { t with t7 := some 0 } =
        Orders.from_target { t with t7 := none })
    ∧ (∀ o : Orders, o.quantity = some 0 →
      (Orders.from_target o.as_tuple).quantity = none) := by
  refine ⟨?_, ?_, ?_, ?_, ?_, ?_⟩
  · intro r; simp [Orders.from_source, coerceFalsy]
  · intro r; simp [Orders.from_source, coerceFalsy]
  · intro r
    refine ⟨?_, ?_, ?_⟩ <;> simp [Orders.from_source, coerceFalsy]
  · intro r; simp [Orders.from_source, coerceFalsy]
  · intro t; simp [Orders.from_target, coerceFalsy]
  · intro o h
    simp [Orders.from_target, Orders.as_tuple, coerceFalsy, h]

/-- Witness for C10: a concrete row with `quantity = 0` parses like the row
with `quantity` absent, and a record holding `quantity = 0` loses the zero
through the `as_tuple`/`from_target` round trip. -/
theorem C10_witness :
    (Orders.from_source ⟨1, 1, "TICKER", "AAPL", "T1", none, none, some 0, none⟩ =
      Orders.from_source ⟨1, 1, "TICKER", "AAPL", "T1", none, none, none, none⟩)
    ∧ ((Orders.from_target
        ({ portfolio_id := 1, asset_id := "AAPL", order_ts := "T1",
           quantity := some 0 } : Orders).as_tuple).quantity = none) := by
  constructor
  · exact C10_zero_coercion.2.2.1
      ⟨1, 1, "TICKER", "AAPL", "T1", none, none, none, none⟩ |>.1
  · exact C10_zero_coercion.2.2.2.2.2 _ rfl

end PaperEngine

namespace PaperEngine

/-! ### C6: order sizing and minimum order unit -/

/-- A fold of `al_qn_step` never touches a quantities entry whose key is
not among the remaining records. -/
theorem al_qn_foldl_stable (capital : ℚ) (tw prices : List (String × ℚ)) :
    ∀ (rs : List AlStrategyRec) (acc : List (String × ℚ) × List (String × ℚ) × ℚ)
      (k : String), ¬ k ∈ rs.map AlStrategyRec.asset_id →
      dictGet (rs.foldl (al_qn_step capital tw prices) acc).1 k =
        dictGet acc.1 k := by
  intro rs
  induction rs with
  | nil => intro acc k _; rfl
  | cons s t ih =>
    intro acc k hk
    simp only [List.map_cons, List.mem_cons, not_or] at hk
    rw [List.foldl_cons, ih _ k hk.2]
    show dictGet (dictSet acc.1 s.asset_id _) k = _
    rw [dictGet_dictSet, if_neg (fun h => hk.1 h.symm)]

/-- After the alpaca quantity loop over records with pairwise distinct
asset ids, each record's quantity entry is exactly `al_quantity` at its
target weight and price. -/
theorem al_qn_loop_lookup (capital : ℚ) (tw prices : List (String × ℚ)) :
    ∀ (rs : List AlStrategyRec)
      (acc : List (String × ℚ) × List (String × ℚ) × ℚ),
      (rs.map AlStrategyRec.asset_id).Nodup →
      ∀ s ∈ rs,
        dictGet (rs.foldl (al_qn_step capital tw prices) acc).1 s.asset_id =
          some (al_quantity capital ((dictGet tw s.asset_id).getD 0)
            ((dictGet prices s.asset_id).getD 0) s.asset_id_type) := by
  intro rs
  induction rs with
  | nil => intro acc _ s hs; cases hs
  | cons x t ih =>
    intro acc hnd s hs
    have hnd' := hnd
    rw [List.map_cons, List.nodup_cons] at hnd'
    rcases List.mem_cons.mp hs with h | h
    · subst h
      rw [List.foldl_cons, al_qn_foldl_stable capital tw prices t _ _ hnd'.1]
      show dictGet (dictSet acc.1 s.asset_id _) s.asset_id = _
      rw [dictGet_dictSet, if_pos rfl]
    · exact ih _ hnd'.2 s h

/-- Claim C6 (order sizing and minimum order unit).  For a candidate with a
positive price and a non-negative target notional: (i) the alpaca raw
quantity for a lot-constrained `"STOCK_TICKER"` instrument is
`⌊targetNotional / price⌋` (the `Decimal` `//`, which truncates toward
zero, agrees with the floor there), floored up to 1 when it is exactly 0;
(ii) for any other instrument type (crypto) it is the fractional
`targetNotional / price`, floored up to 1 when exactly 0; (iii) the equity
variant lot-rounds every instrument the same way; (iv) the spec's example:
`targetWeight = 0.00001`, `capital = 1000`, `price = 100000` under stock
lot rounding gives quantity 1, not 0; (v) in the alpaca pipeline over
candidates with distinct asset ids, every price-filtered candidate (their
quoted prices are all non-zero) gets exactly that quantity, at its target
weight and selected price. -/
theorem C6_order_sizing_min_unit :
    (∀ capital w price : ℚ, 0 ≤ capital * w → 0 < price →
      al_quantity capital w price "STOCK_TICKER" =
        if (⌊capital * w / price⌋ : ℤ) = 0 then 1 else (⌊capital * w / price⌋ : ℤ))
    ∧ (∀ (capital w price : ℚ) (t : String), t ≠ "STOCK_TICKER" →
      al_quantity capital w price t =
        if capital * w / price = 0 then 1 else capital * w / price)
    ∧ (∀ capital w price : ℚ, 0 ≤ capital * w → 0 < price →
      eq_quantity capital w price =
        if (⌊capital * w / price⌋ : ℤ) = 0 then 1 else (⌊capital * w / price⌋ : ℤ))
    ∧ (al_quantity 1000 (1 / 100000) 100000 "STOCK_TICKER" = 1
        ∧ eq_quantity 1000 (1 / 100000) 100000 = 1)
    ∧ (∀ (capital : ℚ) (rs : List AlStrategyRec) (cur : List (String × ℚ))
        (asks bids : List (String × Option ℚ)),
        ((al_get_weights capital rs cur asks bids).strategy_records.map
          AlStrategyRec.asset_id).Nodup →
        ∀ s ∈ (al_get_weights capital rs cur asks bids).strategy_records,
          ((dictGet (al_get_weights capital rs cur asks bids).prices
              s.asset_id).getD 0 ≠ 0)
          ∧ dictGet (al_get_weights capital rs cur asks bids).quantities
              s.asset_id =
            some (al_quantity capital
              ((dictGet (al_get_weights capital rs cur asks bids).target_weights
                s.asset_id).getD 0)
              ((dictGet (al_get_weights capital rs cur asks bids).prices
                s.asset_id).getD 0)
              s.asset_id_type)) := by
  have hfloor : ∀ a b : ℚ, 0 ≤ a → 0 < b →
      decFloorDiv a b = ((⌊a / b⌋ : ℤ) : ℚ) := by
    intro a b ha hb
    rw [decFloorDiv, if_pos (div_nonneg ha hb.le)]
  refine ⟨?_, ?_, ?_, ⟨by norm_num [al_quantity, decFloorDiv], by
    norm_num [eq_quantity, decFloorDiv]⟩, ?_⟩
  · intro capital w price h1 h2
    rw [al_quantity, if_pos rfl, hfloor _ _ h1 h2]
    by_cases h : (⌊capital * w / price⌋ : ℤ) = 0 <;>
      simp [h, Int.cast_eq_zero]
  · intro capital w price t ht
    rw [al_quantity, if_neg ht]
  · intro capital w price h1 h2
    rw [eq_quantity, hfloor _ _ h1 h2]
    by_cases h : (⌊capital * w / price⌋ : ℤ) = 0 <;>
      simp [h, Int.cast_eq_zero]
  · intro capital rs cur asks bids hnd s hs
    constructor
    · have := List.of_mem_filter hs
      simpa using this
    · exact al_qn_loop_lookup capital _ _ _ ([], [], 0) hnd s hs

/-- Witness for C6: the lot-rounding formula instantiated at the spec's
minimum-order-unit example — `capital = 1000`, `targetWeight = 0.00001`,
`price = 100000` — where the floor is 0 and the computed quantity is 1. -/
theorem C6_witness :
    al_quantity 1000 (1 / 100000) 100000 "STOCK_TICKER" =
      (((if (⌊(1000 * (1 / 100000) : ℚ) / 100000⌋ : ℤ) = 0 then 1
         else (⌊(1000 * (1 / 100000) : ℚ) / 100000⌋ : ℤ)) : ℤ) : ℚ)
    ∧ al_quantity 1000 (1 / 100000) 100000 "STOCK_TICKER" = 1 := by
  have h := C6_order_sizing_min_unit.1 1000 (1 / 100000) 100000
    (by norm_num) (by norm_num)
  refine ⟨h, h.trans ?_⟩
  have hf : (⌊(1000 * (1 / 100000) : ℚ) / 100000⌋ : ℤ) = 0 := by
    have he : (1000 * ((1 : ℚ) / 100000)) / 100000 = 1 / 10000000 := by norm_num
    rw [he, Int.floor_eq_zero_iff, Set.mem_Ico]
    constructor <;> norm_num
  rw [if_pos hf]
  norm_num

end PaperEngine

namespace PaperEngine

/-! ### C7: order materiality threshold -/

/-- One alpaca order-parameter step either leaves the buckets alone or
appends a single order for the processed record, whose quantity is the
delta, non-zero, with `|delta * price| > 1`. -/
theorem al_orders_step_cases (w : AlWeighting) (acc : OrdersParams)
    (s : AlStrategyRec) (o : OrderParams)
    (h : o ∈ (al_orders_step w acc s).buy ∨ o ∈ (al_orders_step w acc s).sell) :
    (o ∈ acc.buy ∨ o ∈ acc.sell) ∨
      (o.symbol = s.asset_id ∧ o.qty = al_delta w s ∧ o.qty ≠ 0 ∧
        |al_delta w s * (dictGet w.prices s.asset_id).getD 0| > 1) := by
  by_cases hd : s.decision = some 1
  · simp only [al_orders_step, al_delta, hd, if_true] at h ⊢
    cases hc : coerceFalsy (dictGet w.current_positions s.asset_id) with
    | none =>
      simp only [hc] at h ⊢
      by_cases hth : |(dictGet w.quantities s.asset_id).getD 0 *
          (dictGet w.prices s.asset_id).getD 0| > 1
      · simp only [hth, if_true] at h
        by_cases hlt : (dictGet w.quantities s.asset_id).getD 0 < 0
        · simp only [hlt, if_true, List.mem_append, List.mem_singleton] at h
          rcases h with h | h | h
          · exact Or.inl (Or.inl h)
          · exact Or.inl (Or.inr h)
          · subst h
            exact Or.inr ⟨rfl, rfl, ne_of_lt hlt, hth⟩
        · by_cases hgt : (dictGet w.quantities s.asset_id).getD 0 > 0
          · simp only [hlt, hgt, if_false, if_true, List.mem_append,
              List.mem_singleton] at h
            rcases h with (h | h) | h
            · exact Or.inl (Or.inl h)
            · subst h
              exact Or.inr ⟨rfl, rfl, ne_of_gt hgt, hth⟩
            · exact Or.inl (Or.inr h)
          · simp only [hlt, hgt, if_false] at h
            exact Or.inl h
      · simp only [hth, if_false] at h
        exact Or.inl h
    | some c =>
      simp only [hc] at h ⊢
      by_cases hth : |((dictGet w.quantities s.asset_id).getD 0 - c) *
          (dictGet w.prices s.asset_id).getD 0| > 1
      · simp only [hth, if_true] at h
        by_cases hlt : (dictGet w.quantities s.asset_id).getD 0 - c < 0
        · simp only [hlt, if_true, List.mem_append, List.mem_singleton] at h
          rcases h with h | h | h
          · exact Or.inl (Or.inl h)
          · exact Or.inl (Or.inr h)
          · subst h
            exact Or.inr ⟨rfl, rfl, ne_of_lt hlt, hth⟩
        · by_cases hgt : (dictGet w.quantities s.asset_id).getD 0 - c > 0
          · simp only [hlt, hgt, if_false, if_true, List.mem_append,
              List.mem_singleton] at h
            rcases h with (h | h) | h
            · exact Or.inl (Or.inl h)
            · subst h
              exact Or.inr ⟨rfl, rfl, ne_of_gt hgt, hth⟩
            · exact Or.inl (Or.inr h)
          · simp only [hlt, hgt, if_false] at h
            exact Or.inl h
      · simp only [hth, if_false] at h
        exact Or.inl h
  · simp only [al_orders_step, al_delta, hd, if_false] at h ⊢
    cases hc : coerceFalsy (dictGet w.current_positions s.asset_id) with
    | none =>
      simp only [hc] at h ⊢
      by_cases hth : |(dictGet w.quantities s.asset_id).getD 0 *
          (dictGet w.prices s.asset_id).getD 0| > 1
      · simp only [hth, if_true] at h
        by_cases hgt : (dictGet w.quantities s.asset_id).getD 0 > 0
        · simp only [hgt, if_true, List.mem_append, List.mem_singleton] at h
          rcases h with h | h | h
          · exact Or.inl (Or.inl h)
          · exact Or.inl (Or.inr h)
          · subst h
            exact Or.inr ⟨rfl, rfl, ne_of_gt hgt, hth⟩
        · by_cases hlt : (dictGet w.quantities s.asset_id).getD 0 < 0
          · simp only [hgt, hlt, if_false, if_true, List.mem_append,
              List.mem_singleton] at h
            rcases h with (h | h) | h
            · exact Or.inl (Or.inl h)
            · subst h
              exact Or.inr ⟨rfl, rfl, ne_of_lt hlt, hth⟩
            · exact Or.inl (Or.inr h)
          · simp only [hgt, hlt, if_false] at h
            exact Or.inl h
      · simp only [hth, if_false] at h
        exact Or.inl h
    | some c =>
      simp only [hc] at h ⊢
      by_cases hth : |((dictGet w.quantities s.asset_id).getD 0 + c) *
          (dictGet w.prices s.asset_id).getD 0| > 1
      · simp only [hth, if_true] at h
        by_cases hgt : (dictGet w.quantities s.asset_id).getD 0 + c > 0
        · simp only [hgt, if_true, List.mem_append, List.mem_singleton] at h
          rcases h with h | h | h
          · exact Or.inl (Or.inl h)
          · exact Or.inl (Or.inr h)
          · subst h
            exact Or.inr ⟨rfl, rfl, ne_of_gt hgt, hth⟩
        · by_cases hlt : (dictGet w.quantities s.asset_id).getD 0 + c < 0
          · simp only [hgt, hlt, if_false, if_true, List.mem_append,
              List.mem_singleton] at h
            rcases h with (h | h) | h
            · exact Or.inl (Or.inl h)
            · subst h
              exact Or.inr ⟨rfl, rfl, ne_of_lt hlt, hth⟩
            · exact Or.inl (Or.inr h)
          · simp only [hgt, hlt, if_false] at h
            exact Or.inl h
      · simp only [hth, if_false] at h
        exact Or.inl h

theorem al_orders_foldl_cases (w : AlWeighting) :
    ∀ (rs : List AlStrategyRec) (acc : OrdersParams) (o : OrderParams),
      (o ∈ (rs.foldl (al_orders_step w) acc).buy ∨
        o ∈ (rs.foldl (al_orders_step w) acc).sell) →
      (o ∈ acc.buy ∨ o ∈ acc.sell) ∨
        ∃ s ∈ rs, o.symbol = s.asset_id ∧ o.qty = al_delta w s ∧ o.qty ≠ 0 ∧
          |al_delta w s * (dictGet w.prices s.asset_id).getD 0| > 1 := by
  intro rs
  induction rs with
  | nil => intro acc o h; exact Or.inl h
  | cons s t ih =>
    intro acc o h
    rw [List.foldl_cons] at h
    rcases ih (al_orders_step w acc s) o h with h2 | h2
    · rcases al_orders_step_cases w acc s o h2 with h3 | h3
      · exact Or.inl h3
      · exact Or.inr ⟨s, List.mem_cons_self _ _, h3⟩
    · obtain ⟨s', hs', h3⟩ := h2
      exact Or.inr ⟨s', List.mem_cons_of_mem _ hs', h3⟩

/-- Counterexample to claim C7.  The claim covers both order loaders, but the
equity `get_orders_params` applies no materiality threshold: a candidate
with target quantity 2 at price 1/4 (delta notional 1/2, below the floor
of 1) still produces a buy order. -/
theorem C7_counterexample :
    (eq_get_orders_params
        (eq_get_weights 1 [⟨"X", "TICKER", some 1, 1 / 2⟩] [] [("X", 1 / 4)] [])).buy =
      [⟨"X", 2, OrderSide.buy⟩]
    ∧ ¬ |(2 : ℚ) * (1 / 4)| > 1 := by
  constructor
  · have hq : eq_quantity 1 (1 / 2) (1 / 4) = 2 := by
      rw [eq_quantity, decFloorDiv]
      norm_num
    have hw : eq_get_weights 1 [⟨"X", "TICKER", some 1, 1 / 2⟩] [] [("X", 1 / 4)] [] =
        { capital := 1
          strategy_records := [⟨"X", "TICKER", some 1, 1 / 2⟩]
          current_positions := []
          prices := [("X", 1 / 4)]
          target_weights := [("X", 1 / 2)]
          quantities := [("X", eq_quantity 1 (1 / 2) (1 / 4))]
          notional := [("X", eq_quantity 1 (1 / 2) (1 / 4) * (1 / 4))]
          real_weights := [("X", eq_quantity 1 (1 / 2) (1 / 4) * (1 / 4) /
            (0 + eq_quantity 1 (1 / 2) (1 / 4) * (1 / 4)))]
          total_value := eq_quantity 1 (1 / 2) (1 / 4) * (1 / 4) + 0 } := by
      rw [eq_get_weights]
      norm_num [eq_prices, eq_target_weights, eq_qn_loop, eq_qn_step,
        dictGet, dictSet]
    rw [hw, eq_get_orders_params]
    simp only [List.foldl_cons, List.foldl_nil]
    rw [eq_orders_step]
    norm_num [dictGet, coerceFalsy, hq]
  · rw [show ((2 : ℚ) * (1 / 4)) = 1 / 2 by norm_num,
      abs_of_pos (by norm_num : (0 : ℚ) < 1 / 2)]
    norm_num

/-- Claim C7, amended (order materiality threshold, alpaca variant).  Every
order emitted by the alpaca `get_orders_params` — buy or sell — belongs to
some processed candidate record, its quantity is that record's delta
(target quantity minus current signed quantity, a missing or zero current
position defaulting to nothing, the sign convention inverted for short
decisions), the delta is non-zero, and `|delta × price| > 1`: a
sub-threshold delta produces no buy or sell order.  (The equity variant
applies no such threshold; see the counterexample.) -/
theorem C7_materiality_threshold (w : AlWeighting) (o : OrderParams)
    (h : o ∈ (al_get_orders_params w).buy ∨ o ∈ (al_get_orders_params w).sell) :
    ∃ s ∈ w.strategy_records, o.symbol = s.asset_id ∧ o.qty = al_delta w s ∧
      o.qty ≠ 0 ∧ |o.qty * (dictGet w.prices o.symbol).getD 0| > 1 := by
  rcases al_orders_foldl_cases w w.strategy_records {} o h with h2 | h2
  · rcases h2 with h2 | h2 <;> cases h2
  · obtain ⟨s, hs, hsym, hq, hne, hth⟩ := h2
    refine ⟨s, hs, hsym, hq, hne, ?_⟩
    rw [hsym, hq]
    exact hth

/-- Witness for C7 (amended): the single emitted buy order of `c7_test_w`
(quantity 1 at price 3, delta notional 3) satisfies the threshold
conclusion. -/
theorem C7_witness :
    ∃ s ∈ c7_test_w.strategy_records,
      (⟨"X", 1, OrderSide.buy⟩ : OrderParams).symbol = s.asset_id ∧
      (⟨"X", 1, OrderSide.buy⟩ : OrderParams).qty = al_delta c7_test_w s ∧
      (⟨"X", 1, OrderSide.buy⟩ : OrderParams).qty ≠ 0 ∧
      |(⟨"X", 1, OrderSide.buy⟩ : OrderParams).qty *
        (dictGet c7_test_w.prices
          (⟨"X", 1, OrderSide.buy⟩ : OrderParams).symbol).getD 0| > 1 := by
  apply C7_materiality_threshold c7_test_w ⟨"X", 1, OrderSide.buy⟩
  left
  have habs : |(1 : ℚ) * 3| > 1 := by
    rw [one_mul, abs_of_pos] <;> norm_num
  have hstep : al_get_orders_params c7_test_w =
      { buy := [⟨"X", 1, OrderSide.buy⟩], sell := [] } := by
    rw [al_get_orders_params]
    show List.foldl _ _ c7_test_w.strategy_records = _
    simp only [c7_test_w, List.foldl_cons, List.foldl_nil]
    rw [al_orders_step]
    norm_num [c7_test_w, dictGet, coerceFalsy, habs]
  rw [hstep]
  exact List.mem_singleton_self _

end PaperEngine

namespace PaperEngine

/-! ### C9: batch-collision upsert fallback -/

variable {S K : Type} [DecidableEq K]

theorem filter_not_mem_nil (l : List (K × S)) :
    l.filter (fun p => ¬ p.1 ∈ ([] : List K)) = l := by
  simp

theorem dictGet_filter_not_mem (l : List (K × S)) (ks : List K) (k : K)
    (hk : ¬ k ∈ ks) :
    dictGet (l.filter (fun p => ¬ p.1 ∈ ks)) k = dictGet l k := by
  induction l with
  | nil => rfl
  | cons p t ih =>
    obtain ⟨pk, pv⟩ := p
    simp only [decide_not] at ih ⊢
    by_cases h1 : pk = k
    · subst h1
      simp [dictGet, List.filter_cons, hk]
    · by_cases h2 : pk ∈ ks <;> simp [dictGet, List.filter_cons, h1, h2, ih]

/-- Claim C9 (batch-collision upsert fallback).  Per entity kind and event
batch, the persistence step checks the upsert keys for pairwise
distinctness: (i) with all keys distinct (CREATE and AMEND batches), the
equity loader issues exactly one multi-row upsert per batch;
(ii) a repeated key in the AMEND batch degrades that batch to one
single-row upsert per record in original event order;
(iii) for two AMEND events sharing one key, the issued statements are the
two sequential single-row upserts in order, and replaying the statements
against any store state leaves the second record as the stored row for
that key; (iv)/(v) the alpaca loader's record batch behaves identically. -/
theorem C9_batch_collision_fallback (ops : StateOps S K) :
    (∀ events : Events S,
      (events.create.map (fun e => ops.key e.curr)).Nodup →
      (events.amend.map (fun e => ops.key e.curr)).Nodup →
      equity_persist_postgres ops events =
        [Stmt.append_log events.create,
         Stmt.upsert (events.create.map (fun e => e.curr)),
         Stmt.append_log events.amend,
         Stmt.upsert (events.amend.map (fun e => e.curr)),
         Stmt.append_log events.remove,
         Stmt.delete (events.remove.map (fun e => ops.key e.curr))])
    ∧ (∀ events : Events S,
      (events.create.map (fun e => ops.key e.curr)).Nodup →
      ¬ (events.amend.map (fun e => ops.key e.curr)).Nodup →
      equity_persist_postgres ops events =
        [Stmt.append_log events.create,
         Stmt.upsert (events.create.map (fun e => e.curr)),
         Stmt.append_log events.amend]
          ++ events.amend.map (fun e => Stmt.upsert [e.curr])
          ++ [Stmt.append_log events.remove,
              Stmt.delete (events.remove.map (fun e => ops.key e.curr))])
    ∧ (∀ (m : List (K × S)) (e1 e2 : EventLog S),
      ops.key e1.curr = ops.key e2.curr →
      equity_persist_postgres ops ⟨[], [e1, e2], []⟩ =
        [Stmt.append_log [], Stmt.upsert [], Stmt.append_log [e1, e2],
         Stmt.upsert [e1.curr], Stmt.upsert [e2.curr],
         Stmt.append_log [], Stmt.delete []]
      ∧ dictGet (applyStmts ops m (equity_persist_postgres ops ⟨[], [e1, e2], []⟩))
          (ops.key e2.curr) = some e2.curr)
    ∧ (∀ (records : List S) (ks : List K),
      (records.map ops.key).Nodup →
      alpaca_persist_postgres ops records ks =
        [Stmt.upsert records, Stmt.delete ks])
    ∧ (∀ (m : List (K × S)) (r1 r2 : S) (ks : List K),
      ops.key r1 = ops.key r2 → ¬ ops.key r2 ∈ ks →
      alpaca_persist_postgres ops [r1, r2] ks =
        [Stmt.upsert [r1], Stmt.upsert [r2], Stmt.delete ks]
      ∧ dictGet (applyStmts ops m (alpaca_persist_postgres ops [r1, r2] ks))
          (ops.key r2) = some r2) := by
  refine ⟨?_, ?_, ?_, ?_, ?_⟩
  · intro events h1 h2
    rw [equity_persist_postgres]
    simp only [h1, h2, if_true]
    rfl
  · intro events h1 h2
    rw [equity_persist_postgres]
    simp only [h1, h2, if_true, if_false]
    rfl
  · intro m e1 e2 hk
    have hdup : ¬ (([e1, e2] : List (EventLog S)).map
        (fun e => ops.key e.curr)).Nodup := by
      simp [hk]
    have hplan : equity_persist_postgres ops ⟨[], [e1, e2], []⟩ =
        [Stmt.append_log [], Stmt.upsert [], Stmt.append_log [e1, e2],
         Stmt.upsert [e1.curr], Stmt.upsert [e2.curr],
         Stmt.append_log [], Stmt.delete []] := by
      rw [equity_persist_postgres]
      simp only [hdup, if_false]
      rfl
    refine ⟨hplan, ?_⟩
    rw [hplan]
    show dictGet ((applyUpsert ops (applyUpsert ops (applyUpsert ops m [])
      [e1.curr]) [e2.curr]).filter (fun p => ¬ p.1 ∈ ([] : List K)))
      (ops.key e2.curr) = some e2.curr
    rw [filter_not_mem_nil]
    show dictGet (dictSet (dictSet m (ops.key e1.curr) e1.curr)
      (ops.key e2.curr) e2.curr) (ops.key e2.curr) = some e2.curr
    rw [dictGet_dictSet, if_pos rfl]
  · intro records ks h
    rw [alpaca_persist_postgres]
    simp only [h, if_true]
    rfl
  · intro m r1 r2 ks hk hks
    have hdup : ¬ (([r1, r2] : List S).map ops.key).Nodup := by
      simp [hk]
    have hplan : alpaca_persist_postgres ops [r1, r2] ks =
        [Stmt.upsert [r1], Stmt.upsert [r2], Stmt.delete ks] := by
      rw [alpaca_persist_postgres]
      simp only [hdup, if_false]
      rfl
    refine ⟨hplan, ?_⟩
    rw [hplan]
    show dictGet ((applyUpsert ops (applyUpsert ops m [r1]) [r2]).filter
      (fun p => ¬ p.1 ∈ ks)) (ops.key r2) = some r2
    rw [dictGet_filter_not_mem _ _ _ hks]
    show dictGet (dictSet (dictSet m (ops.key r1) r1) (ops.key r2) r2)
      (ops.key r2) = some r2
    rw [dictGet_dictSet, if_pos rfl]

/-- Witness for C9: two AMEND events on key 1 in one delivery degrade to
two sequential single-row upserts, and the final stored row for key 1 is
the second record; also the distinct-keys multi-row path at a concrete
batch. -/
theorem C9_witness :
    (equity_persist_postgres simpleOps
        ⟨[], [⟨EventType.AMEND, ⟨1, "a", some 1, some 7⟩, none⟩,
              ⟨EventType.AMEND, ⟨1, "b", some 2, some 7⟩, none⟩], []⟩ =
      [Stmt.append_log [], Stmt.upsert [], Stmt.append_log
        [⟨EventType.AMEND, ⟨1, "a", some 1, some 7⟩, none⟩,
         ⟨EventType.AMEND, ⟨1, "b", some 2, some 7⟩, none⟩],
       Stmt.upsert [⟨1, "a", some 1, some 7⟩],
       Stmt.upsert [⟨1, "b", some 2, some 7⟩],
       Stmt.append_log [], Stmt.delete []])
    ∧ dictGet (applyStmts simpleOps []
        (equity_persist_postgres simpleOps
          ⟨[], [⟨EventType.AMEND, ⟨1, "a", some 1, some 7⟩, none⟩,
                ⟨EventType.AMEND, ⟨1, "b", some 2, some 7⟩, none⟩], []⟩)) 1 =
      some ⟨1, "b", some 2, some 7⟩ := by
  have h := (C9_batch_collision_fallback simpleOps).2.2.1 []
    ⟨EventType.AMEND, ⟨1, "a", some 1, some 7⟩, none⟩
    ⟨EventType.AMEND, ⟨1, "b", some 2, some 7⟩, none⟩ rfl
  exact ⟨h.1, h.2⟩

end PaperEngine

namespace PaperEngine

/-! ### C5: turnover-limited rebalance union and blend -/

theorem po_lookup_of_mem :
    ∀ (l : List PoEntry), (l.map PoEntry.ticker).Nodup →
      ∀ e ∈ l, po_lookup l e.ticker = e.weight := by
  intro l
  induction l with
  | nil => intro _ e he; cases he
  | cons x t ih =>
    intro hnd e he
    rw [List.map_cons, List.nodup_cons] at hnd
    rcases List.mem_cons.mp he with h | h
    · subst h
      rw [po_lookup, if_pos rfl]
    · have hne : x.ticker ≠ e.ticker := by
        intro hx
        exact hnd.1 (hx ▸ List.mem_map_of_mem PoEntry.ticker h)
      rw [po_lookup, if_neg hne]
      exact ih hnd.2 e h

theorem po_lookup_append_left (l1 l2 : List PoEntry) (a : String) :
    a ∈ l1.map PoEntry.ticker →
    po_lookup (l1 ++ l2) a = po_lookup l1 a := by
  induction l1 with
  | nil => intro h; cases h
  | cons x t ih =>
    intro h
    by_cases hx : x.ticker = a
    · rw [List.cons_append, po_lookup, po_lookup, if_pos hx, if_pos hx]
    · rw [List.map_cons] at h
      rcases List.mem_cons.mp h with h1 | h1
      · exact absurd h1.symm hx
      · rw [List.cons_append, po_lookup, po_lookup, if_neg hx, if_neg hx]
        exact ih h1

theorem po_lookup_append_right (l1 l2 : List PoEntry) (a : String) :
    ¬ a ∈ l1.map PoEntry.ticker →
    po_lookup (l1 ++ l2) a = po_lookup l2 a := by
  induction l1 with
  | nil => intro _; rfl
  | cons x t ih =>
    intro h
    rw [List.map_cons, List.mem_cons, not_or] at h
    rw [List.cons_append, po_lookup, if_neg (fun hx => h.1 hx.symm)]
    exact ih h.2

theorem po_lookup_all_zero (l : List PoEntry) (h : ∀ e ∈ l, e.weight = 0)
    (a : String) : po_lookup l a = 0 := by
  induction l with
  | nil => rfl
  | cons x t ih =>
    rw [po_lookup]
    by_cases hx : x.ticker = a
    · rw [if_pos hx]
      exact h x (List.mem_cons_self _ _)
    · rw [if_neg hx]
      exact ih (fun e he => h e (List.mem_cons_of_mem _ he))

theorem po_target_tickers (b : List String) (arr : List ℚ) (d : String)
    (hlen : arr.length = b.length) :
    (po_target_weights b arr d).map PoEntry.ticker = b := by
  rw [po_target_weights, List.map_map]
  show (b.zip arr).map Prod.fst = b
  exact List.map_fst_zip b arr (le_of_eq hlen.symm)

/-- When every bought asset already appears among the previous assets, the
tickers of the post-union fresh target are a permutation of the previous
tickers. -/
theorem po_extended_ticker_perm (b : List String) (arr : List ℚ) (d : String)
    (prev : List PoEntry) (hlen : arr.length = b.length) (hbuy : b.Nodup)
    (hprev : (prev.map PoEntry.ticker).Nodup)
    (hsub : ∀ a ∈ b, a ∈ prev.map PoEntry.ticker) :
    List.Perm ((po_extended_target b arr d prev).map PoEntry.ticker)
      (prev.map PoEntry.ticker) := by
  rw [po_extended_target]
  rw [List.map_append, po_target_tickers b arr d hlen, List.map_map]
  rw [show (PoEntry.ticker ∘ fun a => (⟨a, d, 0⟩ : PoEntry)) = id from rfl,
    List.map_id]
  have h1 : List.Perm b ((prev.map PoEntry.ticker).filter (fun a => a ∈ b)) := by
    refine (List.perm_ext_iff_of_nodup hbuy (hprev.filter _)).mpr ?_
    intro x
    simp only [List.mem_filter, decide_eq_true_eq]
    exact ⟨fun hx => ⟨hsub x hx, hx⟩, fun hx => hx.2⟩
  have h2 : List.Perm
      ((prev.map PoEntry.ticker).filter (fun a => a ∈ b) ++
        (prev.map PoEntry.ticker).filter (fun a => ¬ a ∈ b))
      (prev.map PoEntry.ticker) := by
    have hpred : (fun a => decide (¬ a ∈ b)) =
        (fun a => !decide (a ∈ b)) := funext fun a => decide_not
    rw [show ((prev.map PoEntry.ticker).filter (fun a => ¬ a ∈ b) :
        List String) = (prev.map PoEntry.ticker).filter (fun a => !decide (a ∈ b))
      from by rw [← hpred]]
    exact List.filter_append_perm _ _
  exact (h1.append_right _).trans h2

/-- The sort by ticker produces a ticker list sorted for `≤`. -/
theorem po_sort_tickers_sorted (l : List PoEntry) :
    List.Sorted (· ≤ ·) ((po_sort l).map PoEntry.ticker) := by
  have h := List.sorted_insertionSort (fun a b => a.ticker ≤ b.ticker) l
  exact List.pairwise_map.mpr h

/-- Counterexample to claim C5.  The claim fails on the code: with previous
weights `{X: 1}` and fresh target `{A: 1}` (asset A new, sorting before
X), the previous list is not extended, the `zip` truncates, and the output
is the single row `X` with weight `α·1 + (1−α)·1 = 1` — asset `A`, present
only in the fresh target, does not appear in the blended output at all,
and `X`'s weight is not `α·prevWeight[X] + (1−α)·freshTarget[X] = 1/2`. -/
theorem C5_counterexample :
    po_get_weights_rebalance ["A"] [1] "d2" [⟨"X", "d", 1⟩] (1 / 2) =
      [⟨"X", "d", 1⟩]
    ∧ ¬ "A" ∈ (po_get_weights_rebalance ["A"] [1] "d2" [⟨"X", "d", 1⟩]
        (1 / 2)).map PoEntry.ticker := by
  have hAX : ("A" : String) ≤ "X" := String.le_iff_toList_le.mpr (by decide)
  have hmain : po_get_weights_rebalance ["A"] [1] "d2" [⟨"X", "d", 1⟩] (1 / 2) =
      [⟨"X", "d", 1⟩] := by
    rw [po_get_weights_rebalance, po_extended_target, po_target_weights]
    have hfilter : (([⟨"X", "d", 1⟩] : List PoEntry).map PoEntry.ticker).filter
        (fun a => ¬ a ∈ ["A"]) = ["X"] := by
      simp
    rw [hfilter]
    show (List.zip (po_sort [⟨"X", "d", 1⟩])
      (po_sort [⟨"A", "d2", 1⟩, ⟨"X", "d2", 0⟩])).map _ = _
    have hps : po_sort [⟨"X", "d", 1⟩] = [⟨"X", "d", 1⟩] := rfl
    have hts : po_sort [⟨"A", "d2", 1⟩, ⟨"X", "d2", 0⟩] =
        [⟨"A", "d2", 1⟩, ⟨"X", "d2", 0⟩] := by
      rw [po_sort, List.insertionSort, List.insertionSort, List.insertionSort,
        List.orderedInsert, List.orderedInsert, if_pos hAX]
    rw [hps, hts]
    show [(⟨"X", "d", (1 : ℚ)/2 * 1 + (1 - 1/2) * 1⟩ : PoEntry)] = _
    norm_num
  refine ⟨hmain, ?_⟩
  rw [hmain]
  simp

/-- Claim C5, amended (turnover-limited rebalance union and blend).  When
every freshly-bought asset already appears among the previous assets (and
tickers are pairwise distinct on each side), the engine unions correctly:
(i) the blended output holds exactly the previous assets, one row each (in
ticker order); (ii) every output row's weight is
`α × prevWeight[a] + (1−α) × freshTarget[a]` where `freshTarget` is the
post-union fresh target; (iii) an asset dropped from the fresh target
appears in the post-union fresh target with weight 0 (wound down, not
forgotten); (iv) a bought asset keeps its fresh weight in the post-union
target.  An asset present only in the fresh target is **not** covered: the
code never extends the previous list, and the truncating `zip` drops or
misaligns such assets (see the counterexample). -/
theorem C5_union_blend_amended (b : List String) (arr : List ℚ) (d : String)
    (prev : List PoEntry) (alpha : ℚ) (hlen : arr.length = b.length)
    (hbuy : b.Nodup) (hprev : (prev.map PoEntry.ticker).Nodup)
    (hsub : ∀ a ∈ b, a ∈ prev.map PoEntry.ticker) :
    ((po_get_weights_rebalance b arr d prev alpha).map PoEntry.ticker =
      (po_sort prev).map PoEntry.ticker)
    ∧ (∀ e ∈ po_get_weights_rebalance b arr d prev alpha,
        e.weight = alpha * po_lookup prev e.ticker
          + (1 - alpha) * po_lookup (po_extended_target b arr d prev) e.ticker)
    ∧ (∀ a ∈ prev.map PoEntry.ticker, ¬ a ∈ b →
        po_lookup (po_extended_target b arr d prev) a = 0)
    ∧ (∀ a ∈ b, po_lookup (po_extended_target b arr d prev) a =
        po_lookup (po_target_weights b arr d) a) := by
  have hperm := po_extended_ticker_perm b arr d prev hlen hbuy hprev hsub
  have hkeys : (po_sort prev).map PoEntry.ticker =
      (po_sort (po_extended_target b arr d prev)).map PoEntry.ticker := by
    refine List.eq_of_perm_of_sorted ?_ (po_sort_tickers_sorted prev)
      (po_sort_tickers_sorted _)
    exact ((List.perm_insertionSort _ prev).map PoEntry.ticker).trans
      (hperm.symm.trans
        (((List.perm_insertionSort _ _).map PoEntry.ticker).symm))
  have hlenS : (po_sort prev).length =
      (po_sort (po_extended_target b arr d prev)).length := by
    have := congrArg List.length hkeys
    simpa using this
  have hext_nd : ((po_extended_target b arr d prev).map PoEntry.ticker).Nodup :=
    hperm.nodup_iff.mpr hprev
  refine ⟨?_, ?_, ?_, ?_⟩
  · rw [po_get_weights_rebalance, List.map_map]
    show (List.zip (po_sort prev) (po_sort (po_extended_target b arr d prev))).map
      (fun p => p.1.ticker) = _
    rw [show (fun p : PoEntry × PoEntry => p.1.ticker) =
      (PoEntry.ticker ∘ Prod.fst) from rfl, ← List.map_map,
      List.map_fst_zip _ _ (le_of_eq hlenS)]
  · intro e he
    rw [po_get_weights_rebalance] at he
    obtain ⟨pr, hpr, hpre⟩ := List.mem_map.mp he
    obtain ⟨i, hi, hpri⟩ := List.mem_iff_getElem.mp hpr
    have hi1 : i < (po_sort prev).length := by
      rw [List.length_zip] at hi
      omega
    have hi2 : i < (po_sort (po_extended_target b arr d prev)).length := by
      rw [List.length_zip] at hi
      omega
    have hzip : pr = ((po_sort prev)[i], (po_sort (po_extended_target b arr d prev))[i]) := by
      rw [← hpri]
      exact List.getElem_zip
    have hticker : (po_sort prev)[i].ticker =
        (po_sort (po_extended_target b arr d prev))[i].ticker := by
      have h1 := congrArg (fun l : List String => l[i]?) hkeys
      simp only [List.getElem?_map, List.getElem?_eq_getElem hi1,
        List.getElem?_eq_getElem hi2, Option.map_some'] at h1
      exact Option.some.inj h1
    have hmem1 : (po_sort prev)[i] ∈ prev :=
      (List.perm_insertionSort _ prev).subset (List.getElem_mem hi1)
    have hmem2 : (po_sort (po_extended_target b arr d prev))[i] ∈
        po_extended_target b arr d prev :=
      (List.perm_insertionSort _ _).subset (List.getElem_mem hi2)
    have hl1 : po_lookup prev (po_sort prev)[i].ticker =
        (po_sort prev)[i].weight :=
      po_lookup_of_mem prev hprev _ hmem1
    have hl2 : po_lookup (po_extended_target b arr d prev)
        (po_sort (po_extended_target b arr d prev))[i].ticker =
        (po_sort (po_extended_target b arr d prev))[i].weight :=
      po_lookup_of_mem _ hext_nd _ hmem2
    rw [← hpre, hzip]
    show alpha * (po_sort prev)[i].weight + (1 - alpha) *
        (po_sort (po_extended_target b arr d prev))[i].weight =
      alpha * po_lookup prev (po_sort prev)[i].ticker + (1 - alpha) *
        po_lookup (po_extended_target b arr d prev) (po_sort prev)[i].ticker
    rw [hl1, hticker, hl2]
  · intro a ha hnb
    rw [po_extended_target]
    rw [po_lookup_append_right _ _ _
      (by rw [po_target_tickers b arr d hlen]; exact hnb)]
    refine po_lookup_all_zero _ ?_ a
    intro e he
    obtain ⟨x, _, hx⟩ := List.mem_map.mp he
    rw [← hx]
  · intro a hab
    rw [po_extended_target]
    exact po_lookup_append_left _ _ _
      (by rw [po_target_tickers b arr d hlen]; exact hab)

/-- Witness for C5 (amended): the spec's weight-vector-union example —
previous weights `{X: 0.5, Y: 0.5}`, fresh target `{X: 1.0}` (Y no longer
selected), blend coefficient 1/2.  The post-union fresh target carries
`Y ↦ 0` and `X ↦ 1`, and the blended output covers exactly `X` and `Y`. -/
theorem C5_witness :
    ((po_get_weights_rebalance ["X"] [1] "d2"
        [⟨"X", "d", 1 / 2⟩, ⟨"Y", "d", 1 / 2⟩] (1 / 2)).map PoEntry.ticker =
      (po_sort [⟨"X", "d", 1 / 2⟩, ⟨"Y", "d", 1 / 2⟩]).map PoEntry.ticker)
    ∧ (∀ e ∈ po_get_weights_rebalance ["X"] [1] "d2"
        [⟨"X", "d", 1 / 2⟩, ⟨"Y", "d", 1 / 2⟩] (1 / 2),
        e.weight = 1 / 2 * po_lookup [⟨"X", "d", 1 / 2⟩, ⟨"Y", "d", 1 / 2⟩] e.ticker
          + (1 - 1 / 2) * po_lookup (po_extended_target ["X"] [1] "d2"
              [⟨"X", "d", 1 / 2⟩, ⟨"Y", "d", 1 / 2⟩]) e.ticker)
    ∧ (po_lookup (po_extended_target ["X"] [1] "d2"
        [⟨"X", "d", 1 / 2⟩, ⟨"Y", "d", 1 / 2⟩]) "Y" = 0)
    ∧ (po_lookup (po_extended_target ["X"] [1] "d2"
        [⟨"X", "d", 1 / 2⟩, ⟨"Y", "d", 1 / 2⟩]) "X" =
      po_lookup (po_target_weights ["X"] [1] "d2") "X") := by
  have h := C5_union_blend_amended ["X"] [1] "d2"
    [⟨"X", "d", 1 / 2⟩, ⟨"Y", "d", 1 / 2⟩] (1 / 2) rfl (by decide) (by decide)
    (by decide)
  exact ⟨h.1, h.2.1, h.2.2.1 "Y" (by decide) (by decide), h.2.2.2 "X" (by decide)⟩

end PaperEngine
